import Mathlib

/-!
Verification development for the nginx-car-range repository.

The definitions below are a shallow embedding of `src/car_reader.rs`,
`src/varint.rs` and `src/lib.rs`.  Rust `u64`/`usize` values are modelled
as `Nat`; the source's arithmetic cannot overflow on the inputs considered
here (hypotheses in the theorems keep every value far below `2^64`), and
the places where the source's wrapping/underflow semantics could diverge
from `Nat` (`b - 1`, `blk_len - blk_pos`, `read - filled`) are noted at
the definition and guarded by hypotheses in the theorems.  Byte buffers
are `List Nat` with every element below 256.
-/

set_option maxRecDepth 20000

namespace CarRange

abbrev Byte := Nat

/-- `std::ops::Bound<u64>`. -/
inductive Bnd where
  | unbounded
  | included (b : Nat)
  | excluded (b : Nat)
deriving DecidableEq, Repr

/-- A `RangeBounds<u64>` value, reduced to its two bounds
(`range.start_bound()`, `range.end_bound()`). -/
structure RangeB where
  lo : Bnd
  hi : Bnd
deriving DecidableEq, Repr

/-- `u64::MAX`. -/
def u64Max : Nat := 2 ^ 64 - 1

/-- `lt_bound` from `src/car_reader.rs` (lines 18-24). -/
def lt_bound (b : Bnd) (val : Nat) : Bool :=
  match b with
  | .included x => decide (x ≥ val)
  | .excluded x => decide (x > val)
  | .unbounded => false

/-- `gt_bound` from `src/car_reader.rs` (lines 26-32). -/
def gt_bound (b : Bnd) (val : Nat) : Bool :=
  match b with
  | .included x => decide (x ≤ val)
  | .excluded x => decide (x < val)
  | .unbounded => false

/-- `RangeBounds::contains(&x)` as used by the source
(`range.contains(&v)`). -/
def containsR (r : RangeB) (x : Nat) : Bool :=
  (match r.lo with
   | .unbounded => true
   | .included b => decide (b ≤ x)
   | .excluded b => decide (b < x)) &&
  (match r.hi with
   | .unbounded => true
   | .included b => decide (x ≤ b)
   | .excluded b => decide (x < b))

/-- The numeric start bound computed inside `ranges_overlap`
(`Included(x) => *x`, `Excluded(x) => *x + 1`, `Unbounded => u64::MIN`). -/
def rangeStartNum (r : RangeB) : Nat :=
  match r.lo with
  | .included x => x
  | .excluded x => x + 1
  | .unbounded => 0

/-- The numeric end bound computed inside `ranges_overlap`
(`Included(x) => *x + 1`, `Excluded(x) => *x`, `Unbounded => u64::MAX`). -/
def rangeEndNum (r : RangeB) : Nat :=
  match r.hi with
  | .included x => x + 1
  | .excluded x => x
  | .unbounded => u64Max

/-- `ranges_overlap` from `src/car_reader.rs` (lines 34-50); `lo..hi` is the
second (half-open `Range<usize>`) argument. -/
def ranges_overlap (r : RangeB) (lo hi : Nat) : Bool :=
  decide (rangeStartNum r < hi) && decide (lo < rangeEndNum r)

/-- Loop body of `u64::decode_var` from `src/varint.rs` (lines 72-94):
`result` and `shift` are the accumulators; the `% 2 ^ 64` reflects that
`result` is a `u64` (bits shifted past position 63 are dropped). -/
def decode_var_go : List Byte → Nat → Nat → Option (Nat × Nat)
  | [], _, _ => none
  | b :: rest, result, shift =>
    let msb_dropped := b &&& 127
    let result' := (result ||| (msb_dropped <<< shift)) % 2 ^ 64
    let shift' := shift + 7
    if (b &&& 128) == 0 then some (result', shift' / 7)
    else if shift' > 9 * 7 then none
    else decode_var_go rest result' shift'

/-- `u64::decode_var` (and `usize::decode_var`, which delegates to it) from
`src/varint.rs`: returns the decoded value and the number of bytes read, or
`none` when the bytes run out, or ten bytes are seen, without a terminator
(a byte whose top bit is clear). -/
def decode_var (src : List Byte) : Option (Nat × Nat) :=
  decode_var_go src 0 0

/-- `u64::encode_var` from `src/varint.rs` (lines 97-110), producing the
byte list instead of writing into a slice. -/
def encode_var (n : Nat) : List Byte :=
  if n < 128 then [n]
  else (128 ||| n % 256) :: encode_var (n >>> 7)
decreasing_by
  simp only [Nat.shiftRight_eq_div_pow]
  omega

/-- `List.length` in accumulator form.  The accumulator is forced to a
numeral at every step (by the match), so the kernel evaluates it with
constant stack depth; `listLength_eq` states it is `List.length`. -/
def lenAcc : Nat → List Byte → Nat
  | n, [] => n
  | 0, _ :: as => lenAcc 1 as
  | n + 1, _ :: as => lenAcc (n + 2) as

/-- Kernel-friendly `List.length` (see `lenAcc`). -/
def listLength (l : List Byte) : Nat := lenAcc 0 l

lemma lenAcc_eq (l : List Byte) : ∀ n, lenAcc n l = l.length + n := by
  induction l with
  | nil => intro n; cases n <;> simp [lenAcc]
  | cons b as ih =>
    intro n
    cases n with
    | zero => rw [lenAcc, ih]; simp
    | succ n => rw [lenAcc, ih]; simp only [List.length_cons]; omega

@[simp] lemma listLength_eq (l : List Byte) : listLength l = l.length := by
  rw [listLength, lenAcc_eq]; simp

/-- Byte-list equality as an iteratively evaluating boolean (the kernel
reduces it with constant stack depth); `eqBytes_iff` states it decides
`Eq`. -/
def eqBytes : List Byte → List Byte → Bool
  | [], [] => true
  | a :: as, b :: bs => a == b && eqBytes as bs
  | _, _ => false

lemma eqBytes_iff (l1 : List Byte) : ∀ l2, eqBytes l1 l2 = true ↔ l1 = l2 := by
  induction l1 with
  | nil => intro l2; cases l2 <;> simp [eqBytes]
  | cons a as ih =>
    intro l2
    cases l2 with
    | nil => simp [eqBytes]
    | cons b bs => simp [eqBytes, ih]

/-- Equality on `Option (List Byte)`, iteratively evaluating. -/
def eqOptBytes : Option (List Byte) → Option (List Byte) → Bool
  | none, none => true
  | some a, some b => eqBytes a b
  | _, _ => false

lemma eqOptBytes_iff (o1 o2 : Option (List Byte)) :
    eqOptBytes o1 o2 = true ↔ o1 = o2 := by
  cases o1 <;> cases o2 <;> simp [eqOptBytes, eqBytes_iff]

/-- Occurrence count of a byte, in kernel-friendly accumulator form;
`countByte_eq` states it is `List.count`. -/
def countAcc (v : Nat) : Nat → List Byte → Nat
  | n, [] => n
  | 0, b :: bs => countAcc v (if b = v then 1 else 0) bs
  | n + 1, b :: bs => countAcc v (if b = v then n + 2 else n + 1) bs

/-- Kernel-friendly `List.count` (see `countAcc`). -/
def countByte (v : Nat) (l : List Byte) : Nat := countAcc v 0 l

lemma countAcc_eq (v : Nat) (l : List Byte) :
    ∀ n, countAcc v n l = l.count v + n := by
  induction l with
  | nil => intro n; cases n <;> simp [countAcc]
  | cons b bs ih =>
    intro n
    have hc : (b :: bs).count v = bs.count v + if b = v then 1 else 0 := by
      rcases eq_or_ne b v with h | h <;> simp [List.count_cons, h]
    cases n with
    | zero => rw [countAcc, ih, hc]; simp
    | succ n =>
      rw [countAcc, ih, hc]
      rcases eq_or_ne b v with h | h
      · rw [if_pos h, if_pos h]; omega
      · rw [if_neg h, if_neg h]; omega

@[simp] lemma countByte_eq (v : Nat) (l : List Byte) :
    countByte v l = l.count v := by
  rw [countByte, countAcc_eq]; simp

/-- The parser states of `FrameType` in `src/car_reader.rs` (lines 229-243). -/
inductive FrameType where
  | CarHeader
  | Block
  | Cid
  | RawLeaf
  | MerkleDag
  | PBLinks
  | PBData
  | UnixFs
  | DataType
  | FileSize
  | BlockSizes
  | UnixFsData
deriving DecidableEq, Repr

/-- The `Framed<R>` parser state from `src/car_reader.rs` (lines 245-264).
`buf` is the scratch buffer used for cross-chunk varint/CID reassembly. -/
structure Framed where
  len : Nat
  blk_len : Nat
  blk_pos : Nat
  buf : List Byte
  range : RangeB
  unixfs_read : Nat
  unixfs_len : Nat
  has_links : Bool
  state : FrameType
deriving DecidableEq, Repr

/-- `Framed::new` (lines 266-279). -/
def Framed.new (range : RangeB) : Framed :=
  { len := 0, blk_len := 0, blk_pos := 0, buf := [], range := range,
    unixfs_read := 0, unixfs_len := 0, has_links := false,
    state := FrameType.CarHeader }

/-- `Framed::include_block` (lines 577-596).  The `+ 1` offsets mirror the
source's `unixfs_read + 1` (its comment: "since the end bound is inclusive,
we add 1 to the unixfs cursor"); the sums are `usize` additions in the
source, which cannot wrap for the cursor values considered here. -/
def Framed.include_block (f : Framed) : Bool :=
  match f.state with
  | .CarHeader => true
  | .UnixFsData | .RawLeaf =>
    if f.unixfs_read == 0 || f.unixfs_len == 0 then
      containsR f.range (f.unixfs_read + 1)
    else
      ranges_overlap f.range (f.unixfs_read + 1) (f.unixfs_read + f.unixfs_len)
  | _ => containsR f.range (f.unixfs_read + 1)

/-- `Framed::is_seek` (lines 650-652). -/
def Framed.is_seek (f : Framed) : Bool :=
  lt_bound f.range.lo f.unixfs_read

/-- Loop of `Framed::decode_len` (lines 598-617): push bytes of `buf` one at
a time onto the scratch buffer and retry `decode_var` on the whole scratch;
`i` counts bytes consumed from `buf`.  Returns the final scratch buffer
(cleared on success) and the decoded `(size, bytes_consumed)`. -/
def decode_len_go : List Byte → List Byte → Nat → List Byte × Option (Nat × Nat)
  | scratch, [], _ => (scratch, none)
  | scratch, b :: rest, i =>
    let scratch' := scratch ++ [b]
    match decode_var scratch' with
    | some (size, _) => ([], some (size, i + 1))
    | none =>
      -- `buf.len() - (i + 1) > 0` is: the remaining bytes are non-empty
      if rest.isEmpty then (scratch', none)
      else decode_len_go scratch' rest (i + 1)

/-- `Framed::decode_len` (lines 598-617). -/
def Framed.decode_len (f : Framed) (buf : List Byte) : Framed × Option (Nat × Nat) :=
  match decode_len_go f.buf buf 0 with
  | (scratch, res) => ({ f with buf := scratch }, res)

/-- Model of `Cid::read_bytes` from the external `cid` crate (an external
dependency; only its interface is relevant, per the spec's section 6):
a CIDv0 is the two bytes `0x12 0x20` followed by a 32-byte digest and has
codec `0x70`; a CIDv1 is varint version `1`, a varint codec, and a
multihash (varint code, varint digest size of at most 64, digest bytes).
Returns `(codec, bytes_read)`; `none` models a decode error, including a
truncated prefix. -/
def cidReadBytes (bs : List Byte) : Option (Nat × Nat) :=
  match decode_var bs with
  | none => none
  | some (version, n1) =>
    let rest1 := bs.drop n1
    match decode_var rest1 with
    | none => none
    | some (codec, n2) =>
      let rest2 := rest1.drop n2
      if version == 0x12 && codec == 0x20 then
        if 32 ≤ listLength rest2 then some (0x70, n1 + n2 + 32) else none
      else if version == 1 then
        match decode_var rest2 with
        | none => none
        | some (_, n3) =>
          match decode_var (rest2.drop n3) with
          | none => none
          | some (size, n4) =>
            if size > 64 then none
            else if size ≤ listLength ((rest2.drop n3).drop n4) then
              some (codec, n1 + n2 + n3 + n4 + size)
            else none
      else none

/-- Loop of `Framed::decode_cid` (lines 619-648): push up to 36 bytes of
`buf` (starting at index `i`) onto the scratch buffer, retry the CID parse
on the whole scratch, and on failure continue while `buf.len() > i + 1`.
Returns the final scratch (cleared on success) and `(codec, read)` where
`read` is the parser position inside the scratch.  The first argument is
fuel; `i` strictly increases each round so `buf.length + 2` suffices. -/
def decode_cid_go : Nat → List Byte → Nat → List Byte → List Byte × Option (Nat × Nat)
  | 0, scratch, _, _ => (scratch, none)
  | fuel + 1, scratch, i, buf =>
    let jend := min (i + 36) (listLength buf)
    let scratch' := scratch ++ ((buf.drop i).take (jend - i))
    let i' := if i < jend then jend else i + 1
    match cidReadBytes scratch' with
    | some (codec, read) => ([], some (codec, read))
    | none =>
      if listLength buf > i' + 1 then decode_cid_go fuel scratch' i' buf
      else (scratch', none)

/-- `Framed::decode_cid` (lines 619-648).  On success the source clears the
scratch, advances `blk_pos` by the full CID size `read`, and reports
`read - filled` bytes consumed from the current chunk (`filled` being the
scratch size on entry; the `usize` subtraction cannot underflow because a
parse that failed on `filled` bytes can only succeed strictly past them). -/
def Framed.decode_cid (f : Framed) (buf : List Byte) : Framed × Option (Nat × Nat) :=
  let filled := f.buf.length
  match decode_cid_go (listLength buf + 2) f.buf 0 buf with
  | (_, some (codec, read)) =>
    ({ f with buf := [], blk_pos := f.blk_pos + read }, some (codec, read - filled))
  | (scratch, none) => ({ f with buf := scratch }, none)

/-- Result of one iteration of the `while` loop of `Framed::next`:
`halt` is the loop's `return`/exit (carrying the final `ranges`), `cont`
carries the updated mutable state, and `panic` models the source's
`unimplemented!()`, `unreachable!()` and failed `unwrap()` calls inside
the loop (`Framed::next` never returns an `io::Error`). -/
inductive StepRes where
  | halt (f : Framed) (ranges : List (Nat × Nat))
  | cont (f : Framed) (current : List Byte) (ranges : List (Nat × Nat))
      (start pos maybe : Nat)
  | panic

/-- The `if self.has_links { pos += maybe; maybe = 0; }` commit that runs at
line 490, after the `decode_len` match, in every `self.len == 0` round. -/
def afterLenStep (f : Framed) (current : List Byte) (ranges : List (Nat × Nat))
    (start pos maybe : Nat) : StepRes :=
  if f.has_links then StepRes.cont f current ranges start (pos + maybe) 0
  else StepRes.cont f current ranges start pos maybe

/-- One iteration of the `while current.len() > 0` loop of `Framed::next`
(`src/car_reader.rs` lines 283-574), together with the loop exit (lines
572-573) when `current` is empty.  `origLen` is `buf.len()` of the whole
chunk (used by the `pos = buf.len()` / `maybe = buf.len()` assignments);
`ranges`, `start`, `pos`, `maybe` are the loop's mutable locals. -/
def nextStep (origLen : Nat) (f : Framed) (current : List Byte)
    (ranges : List (Nat × Nat)) (start pos maybe : Nat) : StepRes :=
  if current.isEmpty then
    StepRes.halt f (ranges ++ [(start, pos)])
  else if gt_bound f.range.hi f.unixfs_read then
    -- lines 290-293: early return once the end bound has been passed
    StepRes.halt f (ranges ++ [(start, pos)])
  else if f.state = FrameType.Cid then
    match f.decode_cid current with
    | (f1, some (codec, read)) =>
      -- lines 296-327
      let f2 := { f1 with state := FrameType.Block }
      let current' := current.drop read
      let pm1 := if f2.include_block then (pos + read, maybe) else (pos, maybe + read)
      if codec = 0x55 then
        let f3 := { f2 with
                    state := FrameType.RawLeaf,
                    len := f2.blk_len - f2.blk_pos,
                    unixfs_len := f2.blk_len - f2.blk_pos }
        let pm2 := if f3.include_block || decide (f3.blk_len < 1000) then
          (pm1.1 + pm1.2, 0) else pm1
        StepRes.cont f3 current' ranges start pm2.1 pm2.2
      else if codec = 0x70 then
        let f3 := { f2 with state := FrameType.MerkleDag }
        let pm2 := if f3.include_block || decide (f3.blk_len < 1000) then
          (pm1.1 + pm1.2, 0) else pm1
        StepRes.cont f3 current' ranges start pm2.1 pm2.2
      else
        -- line 318: unimplemented!()
        StepRes.panic
    | (f1, none) =>
      -- lines 328-338: the whole chunk was consumed into the scratch
      let pos1 := if f1.include_block || decide (f1.blk_len < 1000) then origLen else pos
      StepRes.cont f1 [] ranges start pos1 maybe
  else if f.len = 0 then
    -- lines 342-493: beginning of a frame
    match f.decode_len current with
    | (f1, some (size, read)) =>
      let current' := current.drop read
      let f2 := { f1 with len := size }
      let pm1 := if f2.include_block then (pos + read, maybe) else (pos, maybe + read)
      match f2.state with
      | .Block =>
        let f3 := { f2 with
                    state := FrameType.Cid, blk_len := size, len := 0,
                    has_links := false }
        let pm2 := if decide (f3.blk_len < 1000) then (pm1.1 + pm1.2, 0) else pm1
        afterLenStep f3 current' ranges start pm2.1 pm2.2
      | .MerkleDag =>
        let f3 := { f2 with blk_pos := f2.blk_pos + read }
        if size &&& 7 ≥ 6 then StepRes.panic   -- WireType::try_from(..).unwrap()
        else
          let tag := (size % 2 ^ 32) >>> 3
          if tag = 2 then
            afterLenStep { f3 with state := FrameType.PBLinks, len := 0 }
              current' ranges start pm1.1 pm1.2
          else if tag = 1 then
            afterLenStep { f3 with state := FrameType.PBData, len := 0 }
              current' ranges start pm1.1 pm1.2
          else StepRes.panic   -- line 385: unreachable!()
      | .UnixFs =>
        let f3 := { f2 with blk_pos := f2.blk_pos + read }
        if size &&& 7 ≥ 6 then StepRes.panic   -- WireType::try_from(..).unwrap()
        else
          let tag := (size % 2 ^ 32) >>> 3
          if tag = 1 then
            afterLenStep { f3 with state := FrameType.DataType, len := 0 }
              current' ranges start pm1.1 pm1.2
          else if tag = 2 then
            afterLenStep { f3 with state := FrameType.UnixFsData, len := 0 }
              current' ranges start pm1.1 pm1.2
          else if tag = 3 then
            afterLenStep { f3 with state := FrameType.FileSize, len := 0 }
              current' ranges start pm1.1 pm1.2
          else if tag = 4 then
            afterLenStep { f3 with state := FrameType.BlockSizes, len := 0 }
              current' ranges start pm1.1 pm1.2
          else if tag = 5 ∨ tag = 6 then
            -- tags 5/6 only log; `len` keeps the decoded `size`
            afterLenStep f3 current' ranges start pm1.1 pm1.2
          else StepRes.panic   -- line 418: unreachable!()
      | .PBLinks =>
        afterLenStep { f2 with blk_pos := f2.blk_pos + read, has_links := true }
          current' ranges start pm1.1 pm1.2
      | .UnixFsData =>
        afterLenStep { f2 with
                       blk_pos := f2.blk_pos + read, unixfs_len := size,
                       len := f2.blk_len - (f2.blk_pos + read) }
          current' ranges start pm1.1 pm1.2
      | .PBData | .DataType | .FileSize | .BlockSizes =>
        let f3 := { f2 with blk_pos := f2.blk_pos + read, len := 0 }
        if f2.state = FrameType.DataType ∧ size % 2 ^ 32 ≥ 6 then
          StepRes.panic   -- line 442: DataType try_into().unwrap()
        else if f3.blk_len - f3.blk_pos = 0 then
          let f4 := { f3 with state := FrameType.Block, blk_pos := 0 }
          let pm2 := if f4.unixfs_len = 0 then (pm1.1 + pm1.2, 0) else pm1
          afterLenStep f4 current' ranges start pm2.1 pm2.2
        else
          afterLenStep { f3 with state := FrameType.UnixFs }
            current' ranges start pm1.1 pm1.2
      | _ =>
        afterLenStep f2 current' ranges start pm1.1 pm1.2
    | (f1, none) =>
      -- lines 466-487
      let pm1 := if f1.include_block then (origLen, maybe) else (pos, origLen)
      let inSet :=
        match f1.state with
        | .MerkleDag | .UnixFs | .PBData | .DataType | .FileSize
        | .BlockSizes | .PBLinks | .UnixFsData => true
        | _ => false
      let f2 := if inSet then { f1 with blk_pos := f1.blk_pos + f1.buf.length } else f1
      afterLenStep f2 [] ranges start pm1.1 pm1.2
  else if f.len ≤ listLength current then
    -- lines 496-543: end of the frame
    let pm1 := if f.include_block then (pos + f.len + maybe, 0) else (pos, maybe + f.len)
    let current' := current.drop f.len
    match f.state with
    | .CarHeader =>
      StepRes.cont { f with state := FrameType.Block, len := 0 }
        current' ranges start pm1.1 pm1.2
    | .PBLinks =>
      StepRes.cont { f with
                     state := FrameType.MerkleDag,
                     blk_pos := f.blk_pos + f.len, len := 0 }
        current' ranges start pm1.1 pm1.2
    | .UnixFsData | .RawLeaf =>
      let rspm :=
        if pm1.2 > 0 then
          if pm1.1 > start then
            (ranges ++ [(start, pm1.1)], start + pm1.1 + pm1.2,
             start + pm1.1 + pm1.2, 0)
          else (ranges, start + pm1.2, start + pm1.2, 0)
        else (ranges, start, pm1.1, pm1.2)
      StepRes.cont { f with
                     blk_pos := 0, state := FrameType.Block,
                     unixfs_read := f.unixfs_read + f.unixfs_len,
                     unixfs_len := 0, len := 0 }
        current' rspm.1 rspm.2.1 rspm.2.2.1 rspm.2.2.2
    | _ =>
      StepRes.cont { f with len := 0 } current' ranges start pm1.1 pm1.2
  else
    -- lines 545-570: partial frame, the chunk ends inside the frame
    let clen := listLength current
    let pm1 := if f.include_block then (pos + clen + maybe, 0) else (pos, maybe + clen)
    match f.state with
    | .PBLinks =>
      -- line 561: `pos += maybe` without clearing `maybe`
      StepRes.cont { f with blk_pos := f.blk_pos + clen, len := f.len - clen }
        [] ranges start (pm1.1 + pm1.2) pm1.2
    | .UnixFsData =>
      StepRes.cont { f with blk_pos := f.blk_pos + clen, len := f.len - clen }
        [] ranges start pm1.1 pm1.2
    | _ =>
      StepRes.cont { f with len := f.len - clen } [] ranges start pm1.1 pm1.2

/-- The `while` loop of `Framed::next`, driven by fuel.  Every `cont` either
consumes at least one input byte or empties `current`, so
`buf.length + 2` fuel always suffices; `none` models a panic (or the
source's divergence). -/
def next_go (origLen : Nat) : Nat → Framed → List Byte → List (Nat × Nat) →
    Nat → Nat → Nat → Option (Framed × List (Nat × Nat))
  | 0, _, _, _, _, _, _ => none
  | fuel + 1, f, current, ranges, start, pos, maybe =>
    match nextStep origLen f current ranges start pos maybe with
    | .halt f' rs => some (f', rs)
    | .panic => none
    | .cont f' c' rs' s' p' m' => next_go origLen fuel f' c' rs' s' p' m'

/-- `Framed::next` (lines 283-574): feed one chunk, returning the updated
parser and the list of `(start, end)` view ranges into that chunk. -/
def Framed.next (f : Framed) (buf : List Byte) : Option (Framed × List (Nat × Nat)) :=
  next_go (listLength buf) (listLength buf + 2) f buf [] 0 0 0

/-- How the callers of `Framed::next` consume the ranges: the bytes
`buf[start..end]` of each view, in order (`test_frame_loop`, line 1613). -/
def concatViews (buf : List Byte) (rs : List (Nat × Nat)) : List Byte :=
  (rs.map (fun p => (buf.take p.2).drop p.1)).flatten

/-- Feed a list of chunks through one `Framed` parser in order, collecting
the concatenation of all emitted views (as `test_frame_loop` does). -/
def processChunks (f : Framed) : List (List Byte) → Option (Framed × List Byte)
  | [] => some (f, [])
  | c :: cs =>
    match f.next c with
    | none => none
    | some (f', rs) =>
      match processChunks f' cs with
      | none => none
      | some (f'', out) => some (f'', concatViews c rs ++ out)

/-- The filter's end-to-end output for a fresh parser over a request
`range`, for a given chunking of the input stream. -/
def filterOutput (r : RangeB) (chunks : List (List Byte)) : Option (List Byte) :=
  (processChunks (Framed.new r) chunks).map (fun x => x.2)

/-- `CarBufferContext` from `src/car_reader.rs` (lines 73-79); the allocator
is the test suite's `MockPool`, whose `alloc_chain` never fails. -/
structure CarBufferContext where
  framed : Framed
  done : Nat
  pos : Nat
deriving DecidableEq, Repr

/-- `CarBufferContext::new` (lines 82-90). -/
def CarBufferContext.new (r : RangeB) : CarBufferContext :=
  { framed := Framed.new r, done := 0, pos := 0 }

/-- One output chain cell produced by `CarBufferContext::buffer`: its byte
window and the `last_buf` / `last_in_chain` flags set on the underlying
`ngx_buf_t`. -/
structure OutBuf where
  bytes : List Byte
  last_buf : Bool
  last_in_chain : Bool
deriving DecidableEq, Repr

/-- The `is_last` test of `CarBufferContext::buffer` (lines 118-124).  The
`b - 1` for an exclusive bound is a `u64` subtraction in the source
(underflowing for `b = 0`); theorems about it assume `1 ≤ b`. -/
def part_is_last (f : Framed) : Bool :=
  match f.range.hi with
  | .included b => decide (b = f.unixfs_read)
  | .excluded b => decide (b - 1 = f.unixfs_read)
  | .unbounded => false

/-- The `for (start, end) in parts` loop of `CarBufferContext::buffer`
(lines 113-159) over one input buffer.  `bufLen` is the buffer's live
length (`set_empty` zeroes it), `flagged` records whether the buffer's
`last_buf`/`last_in_chain` flags have been set by an earlier part.  The
source `break`s after the first emitted part, so at most one `OutBuf`
results; `sub = buf.len() - end` is a `usize` subtraction, which cannot
underflow on the part lists `Framed::next` produces. -/
def bufferParts : CarBufferContext → Nat → List Byte → Bool →
    List (Nat × Nat) → CarBufferContext × Option OutBuf
  | ctx, _, _, _, [] => (ctx, none)
  | ctx, bufLen, buf, flagged, (s, e) :: rest =>
    let ctx1 := { ctx with pos := e }
    let sub := bufLen - e
    let fire := (decide (sub > 0) && !ctx1.framed.is_seek) || part_is_last ctx1.framed
    let ctx2 := if fire then { ctx1 with done := 1 } else ctx1
    let flagged' := flagged || fire
    if sub = bufLen ∨ s = e then
      -- lines 133-136: set_empty and continue
      bufferParts ctx2 0 buf flagged' rest
    else
      -- lines 138-158: allocate a chain cell, trim end by `sub` and start
      -- by `start`, then break
      (ctx2, some { bytes := (buf.take e).drop s, last_buf := flagged',
                    last_in_chain := flagged' })

/-- The `while !cl.is_null()` chain walk of `CarBufferContext::buffer`
(lines 104-160): each chain link's buffer is fed to `Framed::next` (whose
panic propagates through the `unwrap()` at line 111 as `none`) and its
parts are folded by `bufferParts`.  Note the `done` flag is not re-checked
between links. -/
def bufferGo : CarBufferContext → List (List Byte) →
    Option (CarBufferContext × List OutBuf)
  | ctx, [] => some (ctx, [])
  | ctx, buf :: rest =>
    match ctx.framed.next buf with
    | none => none
    | some (framed', parts) =>
      match bufferParts { ctx with framed := framed' } (listLength buf) buf false parts with
      | (ctx1, emitted) =>
        match bufferGo ctx1 rest with
        | none => none
        | some (ctx2, outs) =>
          some (ctx2, (match emitted with | some o => [o] | none => []) ++ outs)

/-- `CarBufferContext::buffer` (lines 92-163): once `done == 1` the call
returns the null chain immediately (lines 97-99) without touching the
parser. -/
def CarBufferContext.buffer (ctx : CarBufferContext) (input : List (List Byte)) :
    Option (CarBufferContext × List OutBuf) :=
  if ctx.done == 1 then some (ctx, []) else bufferGo ctx input

/-- `dag_pb::PbNode` as consumed by `nginx_handler` in `src/lib.rs`: only
the optional `data` payload and the length of the `links` list matter
(links are abstract). -/
structure PbNode where
  data : Option (List Byte)
  links : List Unit

/-- `unixfs_pb::Data` as consumed by `nginx_handler`: the `r#type` field
(an `i32`) and the optional inline `data` bytes. -/
structure UnixfsData where
  typ : Int
  data : Option (List Byte)

/-- `lp_write` from `src/lib.rs` (lines 53-58): a length-prefixed frame. -/
def lp_write (bytes : List Byte) : List Byte :=
  encode_var bytes.length ++ bytes

/-- `lp_read` from `src/lib.rs` (lines 45-50): read a varint length `l`,
then exactly `l` payload bytes; `none` models the `io::Error` (bad varint
or unexpected EOF).  Returns the payload and the remaining input. -/
def lp_read (input : List Byte) : Option (List Byte × List Byte) :=
  match decode_var input with
  | none => none
  | some (l, read) =>
    let rest := input.drop read
    if l ≤ listLength rest then some (rest.take l, rest.drop l) else none

/-- The per-block body of the `while let Some(blk) = read_block(..)` loop of
`nginx_handler` in `src/lib.rs` (lines 124-158).  The protobuf decoders
(`dag_pb::PbNode::decode`, `unixfs_pb::Data::decode` — generated external
schema code, out of scope per the spec's section 1) are abstract
parameters.  Returns the updated logical cursor `current` and the bytes
written back (`[]` when the block is skipped); `none` models an error
returned by the handler. -/
def handler_block_step (decodePb : List Byte → Option PbNode)
    (decodeUnixfs : List Byte → Option UnixfsData) (range : RangeB)
    (current : Nat) (cidCodec : Nat) (cidBytes data : List Byte) :
    Option (Nat × List Byte) :=
  if cidCodec = 0x70 then
    match decodePb data with
    | none => none
    | some outer =>
      match outer.data with
      | none => none   -- "missing data" error
      | some inner_data =>
        match decodeUnixfs inner_data with
        | none => none
        | some inner =>
          if inner.typ < 0 ∨ inner.typ > 5 then none   -- DataType try_into()?
          else if outer.links.length = 0 ∧ inner.data.isSome then
            let skip := !containsR range current
            let current' := current + (inner.data.getD []).length
            if skip then some (current', [])
            else some (current', lp_write (cidBytes ++ data))
          else some (current, lp_write (cidBytes ++ data))
  else if cidCodec = 0x55 then
    let skip := !containsR range current
    let current' := current + data.length
    if skip then some (current', [])
    else some (current', lp_write (cidBytes ++ data))
  else some (current, lp_write (cidBytes ++ data))

/-- `CarHeader` from `src/lib.rs` (lines 17-21); the root CIDs are kept as
opaque byte strings (only emptiness of the list is inspected). -/
structure CarHeader where
  roots : List (List Byte)
  version : Nat

/-- `read_header` from `src/lib.rs` (lines 81-98).  The CBOR decoder
(`serde_ipld_dagcbor::from_slice` — an external crate) is an abstract
parameter; `none` models every `Err` returned to the caller.  On success
the source forwards the header frame back to the stream (`lp_write`),
returned here as the third component. -/
def read_header (decode : List Byte → Option CarHeader) (input : List Byte) :
    Option (CarHeader × List Byte × List Byte) :=
  match lp_read input with
  | none => none
  | some (header_buf, rest) =>
    match decode header_buf with
    | none => none
    | some header =>
      if header.roots.isEmpty then none
      else if header.version ≠ 1 then none
      else some (header, rest, lp_write header_buf)

/-!  Concrete CAR streams used by the theorems.  `Framed::next` never
inspects the header payload, so the header frame is a length prefix plus
filler; block CIDs are well-formed CIDv1 values (version 1, codec, sha2-256
multihash code `0x12`, digest size `0x20`, 32 digest bytes). -/

/-- A 60-byte CAR header frame: varint length 59 plus 59 filler bytes. -/
def hdrFrame : List Byte := 59 :: List.replicate 59 1

/-- A raw-codec (0x55) CIDv1, 36 bytes. -/
def rawCidB : List Byte := [1, 0x55, 0x12, 0x20] ++ List.replicate 32 7

/-- A DAG-node-codec (0x70) CIDv1, 36 bytes. -/
def dagCidB : List Byte := [1, 0x70, 0x12, 0x20] ++ List.replicate 32 8

/-- A 1038-byte raw-leaf block frame: varint length 1036 (`8C 08`), raw CID,
1000 payload bytes of value `fill`.  Logical length 1000. -/
def leafFrame (fill : Byte) : List Byte :=
  [0x8C, 0x08] ++ rawCidB ++ List.replicate 1000 fill

/-- A 138-byte raw-leaf block frame: varint length 136 (`88 01`), raw CID,
100 payload bytes of value `fill`.  Its block length 136 is below the
parser's 1000-byte heuristic threshold. -/
def smallLeafFrame (fill : Byte) : List Byte :=
  [0x88, 0x01] ++ rawCidB ++ List.replicate 100 fill

/-- A 47-byte structural DAG frame with one link: varint length 46, DAG CID,
a `PBLinks` field (key `0x12`, 4 link bytes of value `fill`) and a `PBData`
field (key `0x0A`, length 2) holding a unixfs `Type = Directory` field
(`08 01`) with no inline data. -/
def rootFrame (fill : Byte) : List Byte :=
  46 :: (dagCidB ++ [0x12, 4] ++ List.replicate 4 fill ++ [0x0A, 2, 8, 1])

/-- The worked-scenario stream: header, has-links root, two 1000-byte raw
leaves (logical file size 2000).  2183 bytes. -/
def streamS : List Byte :=
  hdrFrame ++ rootFrame 9 ++ leafFrame 11 ++ leafFrame 12

/-- Stream for C1's counterexample: header, root, one raw leaf whose 1000
payload bytes all equal 171. -/
def streamS1 : List Byte := hdrFrame ++ rootFrame 9 ++ leafFrame 171

/-- Stream for C2/C10: header, big leaf, small leaf, big leaf, small leaf
(2412 bytes; logical file size 2200). -/
def streamS3 : List Byte :=
  hdrFrame ++ leafFrame 21 ++ smallLeafFrame 22 ++ leafFrame 23 ++
    smallLeafFrame 24

/-- Stream for C4's counterexample: header, root, one big raw leaf, then a
second has-links DAG frame whose link bytes all equal 77. -/
def streamS4 : List Byte := hdrFrame ++ rootFrame 9 ++ leafFrame 31 ++ rootFrame 77

/-- Stream for C3/C7's counterexamples: header, then a block whose CID
carries the multicodec `0x71` (dag-cbor) and a 2-byte payload. -/
def streamS71 : List Byte :=
  hdrFrame ++ (38 :: ([1, 0x71, 0x12, 0x20] ++ List.replicate 32 7) ++ [5, 6])

/-- The Rust range `0..1`. -/
def range01 : RangeB := ⟨.included 0, .excluded 1⟩

/-- The Rust range `..1024`. -/
def rangeTo1024 : RangeB := ⟨.unbounded, .excluded 1024⟩

/-- The Rust range `..1`. -/
def rangeTo1 : RangeB := ⟨.unbounded, .excluded 1⟩

/-- The Rust range `4500..`. -/
def range4500 : RangeB := ⟨.included 4500, .unbounded⟩

/-- The Rust range `10000..`. -/
def range10000 : RangeB := ⟨.included 10000, .unbounded⟩

/-- The Rust full range `..`. -/
def unbAll : RangeB := ⟨.unbounded, .unbounded⟩

/-- `containsR` in terms of the numeric start bound and the end bound. -/
lemma containsR_true_iff (r : RangeB) (x : Nat) :
    containsR r x = true ↔
      rangeStartNum r ≤ x ∧
        (match r.hi with
         | .unbounded => True
         | .included b => x ≤ b
         | .excluded b => x < b) := by
  rcases r with ⟨lo, hi⟩
  cases lo <;> cases hi <;>
    simp [containsR, rangeStartNum] <;> omega

/-- Correctness of `ranges_overlap` for a non-degenerate interval `[lo, hi)`
against a well-formed range whose values stay below `u64::MAX`: the boolean
is true exactly when some point of `[lo, hi)` lies in the range. -/
lemma ranges_overlap_true_iff (r : RangeB) (lo hi : Nat) (h1 : lo < hi)
    (h2 : hi ≤ u64Max) (h3 : rangeStartNum r < rangeEndNum r) :
    ranges_overlap r lo hi = true ↔
      ∃ x, lo ≤ x ∧ x < hi ∧ containsR r x = true := by
  have hmax : u64Max = 2 ^ 64 - 1 := rfl
  constructor
  · intro h
    simp only [ranges_overlap, Bool.and_eq_true, decide_eq_true_eq] at h
    obtain ⟨hs, hl⟩ := h
    refine ⟨max lo (rangeStartNum r), Nat.le_max_left _ _, by omega, ?_⟩
    rw [containsR_true_iff]
    refine ⟨Nat.le_max_right _ _, ?_⟩
    rcases r with ⟨rlo, rhi⟩
    cases rhi with
    | unbounded => trivial
    | included b =>
      have he : rangeEndNum ⟨rlo, Bnd.included b⟩ = b + 1 := rfl
      show max lo (rangeStartNum ⟨rlo, Bnd.included b⟩) ≤ b
      omega
    | excluded b =>
      have he : rangeEndNum ⟨rlo, Bnd.excluded b⟩ = b := rfl
      show max lo (rangeStartNum ⟨rlo, Bnd.excluded b⟩) < b
      omega
  · rintro ⟨x, hx1, hx2, hx3⟩
    rw [containsR_true_iff] at hx3
    obtain ⟨hx3a, hx3b⟩ := hx3
    simp only [ranges_overlap, Bool.and_eq_true, decide_eq_true_eq]
    refine ⟨by omega, ?_⟩
    rcases r with ⟨rlo, rhi⟩
    cases rhi with
    | unbounded =>
      have he : rangeEndNum ⟨rlo, Bnd.unbounded⟩ = u64Max := rfl
      omega
    | included b =>
      have he : rangeEndNum ⟨rlo, Bnd.included b⟩ = b + 1 := rfl
      have hxb : x ≤ b := hx3b
      omega
    | excluded b =>
      have he : rangeEndNum ⟨rlo, Bnd.excluded b⟩ = b := rfl
      have hxb : x < b := hx3b
      omega

/-- `u64::decode_var` scans without ever succeeding when every byte has the
top bit set: the loop either exhausts the input or gives up after ten
bytes, in both cases returning `None`. -/
lemma decode_var_go_msb (l : List Byte) :
    (∀ b ∈ l, b &&& 128 ≠ 0) → ∀ result shift, decode_var_go l result shift = none := by
  induction l with
  | nil => intro _ r s; rfl
  | cons b rest ih =>
    intro h r s
    have hb : ((b &&& 128) == 0) = false := by
      simpa using h b (List.mem_cons_self b rest)
    simp only [decode_var_go, hb]
    simp only [Bool.false_eq_true, if_false]
    split
    · rfl
    · exact ih (fun x hx => h x (List.mem_cons_of_mem b hx)) _ _

/-- `Framed::decode_len` on a chunk of unterminated-varint bytes: every byte
is pushed into the scratch buffer (which grows without bound) and the call
reports an incomplete frame, never an error. -/
lemma decode_len_go_msb (buf : List Byte) :
    ∀ scratch i, buf ≠ [] → (∀ b ∈ scratch, b &&& 128 ≠ 0) →
      (∀ b ∈ buf, b &&& 128 ≠ 0) →
      decode_len_go scratch buf i = (scratch ++ buf, none) := by
  induction buf with
  | nil => intro _ _ h _ _; exact absurd rfl h
  | cons b rest ih =>
    intro scratch i _ hs hb
    have hall : ∀ x ∈ scratch ++ [b], x &&& 128 ≠ 0 := by
      intro x hx
      rcases List.mem_append.mp hx with hx | hx
      · exact hs x hx
      · simp at hx; subst hx; exact hb _ (List.mem_cons_self _ _)
    have hdv : decode_var (scratch ++ [b]) = none := decode_var_go_msb _ hall 0 0
    simp only [decode_len_go, hdv]
    rcases eq_or_ne rest [] with hr | hr
    · subst hr; simp
    · have hne : rest.isEmpty = false := by
        simp [List.isEmpty_iff, hr]
      simp only [hne, Bool.false_eq_true, if_false]
      rw [ih (scratch ++ [b]) (i + 1) hr hall
        (fun x hx => hb x (List.mem_cons_of_mem b hx))]
      simp

/-- Once the `done` flag is set, no later part of the same buffer clears it. -/
lemma bufferParts_done_mono (parts : List (Nat × Nat)) :
    ∀ ctx bufLen buf flagged, ctx.done = 1 →
      (bufferParts ctx bufLen buf flagged parts).1.done = 1 := by
  induction parts with
  | nil => intro ctx _ _ _ h; exact h
  | cons p rest ih =>
    rcases p with ⟨s, e⟩
    intro ctx bufLen buf flagged h
    simp only [bufferParts]
    split
    · apply ih
      split <;> simp [h]
    · split <;> simp [h]

/-- Once the buffer's last-flags have been set, any part it emits carries
them. -/
lemma bufferParts_flag_mono (parts : List (Nat × Nat)) :
    ∀ ctx bufLen buf o, (bufferParts ctx bufLen buf true parts).2 = some o →
      o.last_buf = true ∧ o.last_in_chain = true := by
  induction parts with
  | nil => intro ctx _ _ o h; simp [bufferParts] at h
  | cons p rest ih =>
    rcases p with ⟨s, e⟩
    intro ctx bufLen buf o h
    simp only [bufferParts, Bool.true_or] at h
    split at h
    · exact ih _ _ _ _ h
    · simp at h
      cases h
      exact ⟨rfl, rfl⟩

/-- With a range unbounded at both ends — and a logical cursor below
`u64::MAX - 1`, where the `ranges_overlap` comparison against `u64::MAX`
would start failing — every inclusion test succeeds. -/
lemma include_block_unb (f : Framed) (hr : f.range = unbAll)
    (hcur : f.unixfs_read + 1 < u64Max) : f.include_block = true := by
  have hm : u64Max = 2 ^ 64 - 1 := rfl
  cases hst : f.state
  case UnixFsData =>
    simp only [Framed.include_block, hst, hr]
    by_cases h0 : (f.unixfs_read == 0 || f.unixfs_len == 0) = true
    · rw [if_pos h0]; simp [containsR, unbAll]
    · rw [if_neg h0]
      simp only [Bool.or_eq_true, beq_iff_eq, not_or] at h0
      simp only [ranges_overlap, rangeStartNum, rangeEndNum, unbAll,
        Bool.and_eq_true, decide_eq_true_eq]
      omega
  case RawLeaf =>
    simp only [Framed.include_block, hst, hr]
    by_cases h0 : (f.unixfs_read == 0 || f.unixfs_len == 0) = true
    · rw [if_pos h0]; simp [containsR, unbAll]
    · rw [if_neg h0]
      simp only [Bool.or_eq_true, beq_iff_eq, not_or] at h0
      simp only [ranges_overlap, rangeStartNum, rangeEndNum, unbAll,
        Bool.and_eq_true, decide_eq_true_eq]
      omega
  all_goals simp [Framed.include_block, hst, hr, containsR, unbAll]

/-- `decode_len` only touches the scratch buffer: all other parser fields
are preserved. -/
lemma decode_len_keeps (f : Framed) (buf : List Byte) :
    (f.decode_len buf).1.range = f.range ∧
    (f.decode_len buf).1.unixfs_read = f.unixfs_read ∧
    (f.decode_len buf).1.unixfs_len = f.unixfs_len ∧
    (f.decode_len buf).1.state = f.state ∧
    (f.decode_len buf).1.blk_len = f.blk_len ∧
    (f.decode_len buf).1.blk_pos = f.blk_pos ∧
    (f.decode_len buf).1.has_links = f.has_links ∧
    (f.decode_len buf).1.len = f.len := by
  rw [Framed.decode_len]
  rcases hq : decode_len_go f.buf buf 0 with ⟨scratch, res⟩
  exact ⟨rfl, rfl, rfl, rfl, rfl, rfl, rfl, rfl⟩

/-- `decode_cid` only touches the scratch buffer and `blk_pos`: the range,
cursor, state and block-length fields are preserved. -/
lemma decode_cid_keeps (f : Framed) (buf : List Byte) :
    (f.decode_cid buf).1.range = f.range ∧
    (f.decode_cid buf).1.unixfs_read = f.unixfs_read ∧
    (f.decode_cid buf).1.unixfs_len = f.unixfs_len ∧
    (f.decode_cid buf).1.state = f.state ∧
    (f.decode_cid buf).1.blk_len = f.blk_len ∧
    (f.decode_cid buf).1.has_links = f.has_links ∧
    (f.decode_cid buf).1.len = f.len := by
  rw [Framed.decode_cid]
  rcases hq : decode_cid_go (listLength buf + 2) f.buf 0 buf with ⟨scratch, res⟩
  cases res with
  | none => exact ⟨rfl, rfl, rfl, rfl, rfl, rfl, rfl⟩
  | some v =>
    rcases v with ⟨codec, read⟩
    exact ⟨rfl, rfl, rfl, rfl, rfl, rfl, rfl⟩

/-- The per-iteration facts behind the unbounded-range identity theorem, as
a predicate on the result of one `nextStep`: a `halt` leaves the parser
unchanged, closes the single view and only happens on an empty chunk
remainder; a `cont` preserves the range, never decreases the unixfs cursor,
and — when the loop locals are in the single-view invariant and the cursor
is below `u64::MAX - 1` — keeps that view covering every chunk byte
processed so far. -/
def StepOk (origLen : Nat) (f : Framed) (current : List Byte)
    (ranges : List (Nat × Nat)) (start pos maybe : Nat) : StepRes → Prop
  | .halt f1 rs1 => f1 = f ∧ rs1 = ranges ++ [(start, pos)] ∧ current = []
  | .panic => True
  | .cont f1 c1 rs1 s1 p1 m1 =>
    f1.range = f.range ∧ f.unixfs_read ≤ f1.unixfs_read ∧
    (f.unixfs_read + 1 < u64Max → ranges = [] → start = 0 → maybe = 0 →
      origLen ≤ pos + current.length →
      rs1 = [] ∧ s1 = 0 ∧ m1 = 0 ∧ origLen ≤ p1 + c1.length)

/-- Every `afterLenStep` continuation satisfies `StepOk` once the new
parser state preserves range and cursor and the new locals keep the
invariant. -/
lemma StepOk_afterLenStep {origLen : Nat} {f : Framed} {current : List Byte}
    {ranges : List (Nat × Nat)} {start pos maybe : Nat}
    {g : Framed} {c : List Byte} {p m : Nat}
    (h1 : g.range = f.range) (h2 : f.unixfs_read ≤ g.unixfs_read)
    (h3 : f.unixfs_read + 1 < u64Max → maybe = 0 →
      origLen ≤ pos + current.length → m = 0 ∧ origLen ≤ p + c.length) :
    StepOk origLen f current ranges start pos maybe
      (afterLenStep g c ranges start p m) := by
  rw [afterLenStep]
  split
  · refine ⟨h1, h2, fun hc h0 hs hm hi => ?_⟩
    obtain ⟨hm0, hb⟩ := h3 hc hm hi
    exact ⟨h0, hs, rfl, by omega⟩
  · refine ⟨h1, h2, fun hc h0 hs hm hi => ?_⟩
    obtain ⟨hm0, hb⟩ := h3 hc hm hi
    exact ⟨h0, hs, hm0, by omega⟩

set_option maxHeartbeats 4000000 in
/-- Every iteration of the `Framed::next` loop satisfies `StepOk` when the
request range is unbounded on both sides. -/
lemma nextStep_ok (origLen : Nat) (f : Framed) (current : List Byte)
    (ranges : List (Nat × Nat)) (start pos maybe : Nat)
    (hr : f.range = unbAll) :
    StepOk origLen f current ranges start pos maybe
      (nextStep origLen f current ranges start pos maybe) := by
  rw [nextStep]
  cases current with
  | nil =>
    rw [if_pos (by simp)]
    exact ⟨rfl, rfl, rfl⟩
  | cons b bs =>
    rw [if_neg (by simp)]
    rw [if_neg (by rw [hr]; simp [unbAll, gt_bound])]
    by_cases hcid : f.state = FrameType.Cid
    · rw [if_pos hcid]
      obtain ⟨hc1, hc2, hc3, hc4, hc5, hc6, hc7⟩ := decode_cid_keeps f (b :: bs)
      rcases hdc : f.decode_cid (b :: bs) with ⟨fd, res⟩
      rw [hdc] at hc1 hc2 hc3 hc4 hc5 hc6 hc7
      cases res with
      | none =>
        dsimp only at hc1 hc2 hc3 hc4 hc5 hc6 hc7 ⊢
        refine ⟨hc1, le_of_eq hc2.symm, fun hcur hrs hs hm hinv => ?_⟩
        subst hrs; subst hs; subst hm
        have hinc : fd.include_block = true :=
          include_block_unb fd (hc1.trans hr) (by rw [hc2]; exact hcur)
        simp [hinc]
      | some v =>
        rcases v with ⟨codec, read⟩
        dsimp only at hc1 hc2 hc3 hc4 hc5 hc6 hc7 ⊢
        by_cases h55 : codec = 85
        · rw [if_pos h55]
          refine ⟨hc1, le_of_eq hc2.symm, fun hcur hrs hs hm hinv => ?_⟩
          subst hrs; subst hs; subst hm
          have hinc2 : Framed.include_block
              { fd with state := FrameType.Block } = true :=
            include_block_unb _ (hc1.trans hr)
              (by show fd.unixfs_read + 1 < u64Max; rw [hc2]; exact hcur)
          have hinc3 : Framed.include_block
              { fd with len := fd.blk_len - fd.blk_pos,
                        unixfs_len := fd.blk_len - fd.blk_pos,
                        state := FrameType.RawLeaf } = true :=
            include_block_unb _ (hc1.trans hr)
              (by show fd.unixfs_read + 1 < u64Max; rw [hc2]; exact hcur)
          simp only [List.length_cons] at hinv
          refine ⟨by simp [hinc2, hinc3], by simp [hinc2, hinc3],
            by simp [hinc2, hinc3], ?_⟩
          simp [hinc2, hinc3]
          omega
        · rw [if_neg h55]
          by_cases h70 : codec = 112
          · rw [if_pos h70]
            refine ⟨hc1, le_of_eq hc2.symm, fun hcur hrs hs hm hinv => ?_⟩
            subst hrs; subst hs; subst hm
            have hinc2 : Framed.include_block
                { fd with state := FrameType.Block } = true :=
              include_block_unb _ (hc1.trans hr)
                (by show fd.unixfs_read + 1 < u64Max; rw [hc2]; exact hcur)
            have hinc3 : Framed.include_block
                { fd with state := FrameType.MerkleDag } = true :=
              include_block_unb _ (hc1.trans hr)
                (by show fd.unixfs_read + 1 < u64Max; rw [hc2]; exact hcur)
            simp only [List.length_cons] at hinv
            refine ⟨by simp [hinc2, hinc3], by simp [hinc2, hinc3],
              by simp [hinc2, hinc3], ?_⟩
            simp [hinc2, hinc3]
            omega
          · rw [if_neg h70]
            exact trivial
    · rw [if_neg hcid]
      by_cases hlen : f.len = 0
      · rw [if_pos hlen]
        obtain ⟨hl1, hl2, hl3, hl4, hl5, hl6, hl7, hl8⟩ :=
          decode_len_keeps f (b :: bs)
        rcases hdl : f.decode_len (b :: bs) with ⟨fd, res⟩
        rw [hdl] at hl1 hl2 hl3 hl4 hl5 hl6 hl7 hl8
        cases res with
        | none =>
          dsimp only at hl1 hl2 hl3 hl4 hl5 hl6 hl7 hl8 ⊢
          refine StepOk_afterLenStep ?_ ?_ ?_
          · split <;> exact hl1
          · split <;> exact le_of_eq hl2.symm
          · intro hcur hm hinv
            subst hm
            have hinc : fd.include_block = true :=
              include_block_unb fd (hl1.trans hr) (by rw [hl2]; exact hcur)
            simp [hinc]
        | some v =>
          rcases v with ⟨size, read⟩
          dsimp only at hl1 hl2 hl3 hl4 hl5 hl6 hl7 hl8 ⊢
          cases hst : fd.state with
          | Block =>
            dsimp only
            refine StepOk_afterLenStep ?_ ?_ ?_
            · exact hl1
            · exact le_of_eq hl2.symm
            · intro hcur hm hinv
              subst hm
              have hinc2 : Framed.include_block
                  { fd with len := size, state := FrameType.Block } = true :=
                include_block_unb _ (hl1.trans hr)
                  (by show fd.unixfs_read + 1 < u64Max; rw [hl2]; exact hcur)
              simp only [List.length_cons] at hinv
              by_cases hb : size < 1000
              · refine ⟨by simp [hinc2, hb], ?_⟩
                simp [hinc2, hb]
                omega
              · refine ⟨by simp [hinc2, hb], ?_⟩
                simp [hinc2, hb]
                omega
          | MerkleDag =>
            dsimp only
            by_cases hw : size &&& 7 ≥ 6
            · rw [if_pos hw]; exact trivial
            · rw [if_neg hw]
              by_cases ht2 : (size % 2 ^ 32) >>> 3 = 2
              · rw [if_pos ht2]
                refine StepOk_afterLenStep hl1 (le_of_eq hl2.symm) ?_
                intro hcur hm hinv
                subst hm
                have hinc2 : Framed.include_block
                    { fd with len := size, state := FrameType.MerkleDag } =
                      true :=
                  include_block_unb _ (hl1.trans hr)
                    (by show fd.unixfs_read + 1 < u64Max; rw [hl2]; exact hcur)
                simp only [List.length_cons] at hinv
                refine ⟨by simp [hinc2], ?_⟩
                simp [hinc2]
                omega
              · rw [if_neg ht2]
                by_cases ht1 : (size % 2 ^ 32) >>> 3 = 1
                · rw [if_pos ht1]
                  refine StepOk_afterLenStep hl1 (le_of_eq hl2.symm) ?_
                  intro hcur hm hinv
                  subst hm
                  have hinc2 : Framed.include_block
                      { fd with len := size, state := FrameType.MerkleDag } =
                        true :=
                    include_block_unb _ (hl1.trans hr)
                      (by show fd.unixfs_read + 1 < u64Max; rw [hl2];
                          exact hcur)
                  simp only [List.length_cons] at hinv
                  refine ⟨by simp [hinc2], ?_⟩
                  simp [hinc2]
                  omega
                · rw [if_neg ht1]; exact trivial
          | UnixFs =>
            dsimp only
            by_cases hw : size &&& 7 ≥ 6
            · rw [if_pos hw]; exact trivial
            · rw [if_neg hw]
              by_cases ht1 : (size % 2 ^ 32) >>> 3 = 1
              · rw [if_pos ht1]
                refine StepOk_afterLenStep hl1 (le_of_eq hl2.symm) ?_
                intro hcur hm hinv
                subst hm
                have hinc2 : Framed.include_block
                    { fd with len := size, state := FrameType.UnixFs } = true :=
                  include_block_unb _ (hl1.trans hr)
                    (by show fd.unixfs_read + 1 < u64Max; rw [hl2]; exact hcur)
                simp only [List.length_cons] at hinv
                refine ⟨by simp [hinc2], ?_⟩
                simp [hinc2]
                omega
              · rw [if_neg ht1]
                by_cases ht2 : (size % 2 ^ 32) >>> 3 = 2
                · rw [if_pos ht2]
                  refine StepOk_afterLenStep hl1 (le_of_eq hl2.symm) ?_
                  intro hcur hm hinv
                  subst hm
                  have hinc2 : Framed.include_block
                      { fd with len := size, state := FrameType.UnixFs } = true :=
                    include_block_unb _ (hl1.trans hr)
                      (by show fd.unixfs_read + 1 < u64Max; rw [hl2]; exact hcur)
                  simp only [List.length_cons] at hinv
                  refine ⟨by simp [hinc2], ?_⟩
                  simp [hinc2]
                  omega
                · rw [if_neg ht2]
                  by_cases ht3 : (size % 2 ^ 32) >>> 3 = 3
                  · rw [if_pos ht3]
                    refine StepOk_afterLenStep hl1 (le_of_eq hl2.symm) ?_
                    intro hcur hm hinv
                    subst hm
                    have hinc2 : Framed.include_block
                        { fd with len := size, state := FrameType.UnixFs } = true :=
                      include_block_unb _ (hl1.trans hr)
                        (by show fd.unixfs_read + 1 < u64Max; rw [hl2]; exact hcur)
                    simp only [List.length_cons] at hinv
                    refine ⟨by simp [hinc2], ?_⟩
                    simp [hinc2]
                    omega
                  · rw [if_neg ht3]
                    by_cases ht4 : (size % 2 ^ 32) >>> 3 = 4
                    · rw [if_pos ht4]
                      refine StepOk_afterLenStep hl1 (le_of_eq hl2.symm) ?_
                      intro hcur hm hinv
                      subst hm
                      have hinc2 : Framed.include_block
                          { fd with len := size, state := FrameType.UnixFs } = true :=
                        include_block_unb _ (hl1.trans hr)
                          (by show fd.unixfs_read + 1 < u64Max; rw [hl2]; exact hcur)
                      simp only [List.length_cons] at hinv
                      refine ⟨by simp [hinc2], ?_⟩
                      simp [hinc2]
                      omega
                    · rw [if_neg ht4]
                      by_cases ht56 : (size % 2 ^ 32) >>> 3 = 5 ∨
                          (size % 2 ^ 32) >>> 3 = 6
                      · rw [if_pos ht56]
                        refine StepOk_afterLenStep hl1 (le_of_eq hl2.symm) ?_
                        intro hcur hm hinv
                        subst hm
                        have hinc2 : Framed.include_block
                            { fd with len := size, state := FrameType.UnixFs } = true :=
                          include_block_unb _ (hl1.trans hr)
                            (by show fd.unixfs_read + 1 < u64Max; rw [hl2]; exact hcur)
                        simp only [List.length_cons] at hinv
                        refine ⟨by simp [hinc2], ?_⟩
                        simp [hinc2]
                        omega
                      · rw [if_neg ht56]; exact trivial
          | PBLinks =>
            dsimp only
            refine StepOk_afterLenStep hl1 (le_of_eq hl2.symm) ?_
            intro hcur hm hinv
            subst hm
            have hinc2 : Framed.include_block
                { fd with len := size, state := FrameType.PBLinks } = true :=
              include_block_unb _ (hl1.trans hr)
                (by show fd.unixfs_read + 1 < u64Max; rw [hl2]; exact hcur)
            simp only [List.length_cons] at hinv
            refine ⟨by simp [hinc2], ?_⟩
            simp [hinc2]
            omega
          | UnixFsData =>
            dsimp only
            refine StepOk_afterLenStep hl1 (le_of_eq hl2.symm) ?_
            intro hcur hm hinv
            subst hm
            have hinc2 : Framed.include_block
                { fd with len := size, state := FrameType.UnixFsData } = true :=
              include_block_unb _ (hl1.trans hr)
                (by show fd.unixfs_read + 1 < u64Max; rw [hl2]; exact hcur)
            simp only [List.length_cons] at hinv
            refine ⟨by simp [hinc2], ?_⟩
            simp [hinc2]
            omega
          | PBData =>
            dsimp only
            rw [if_neg (by simp)]
            by_cases hz : fd.blk_len - (fd.blk_pos + read) = 0
            · rw [if_pos hz]
              refine StepOk_afterLenStep hl1 (le_of_eq hl2.symm) ?_
              intro hcur hm hinv
              subst hm
              have hinc2 : Framed.include_block
                  { fd with len := size, state := FrameType.PBData } = true :=
                include_block_unb _ (hl1.trans hr)
                  (by show fd.unixfs_read + 1 < u64Max; rw [hl2]; exact hcur)
              simp only [List.length_cons] at hinv
              by_cases hu : fd.unixfs_len = 0
              · refine ⟨by simp only [hinc2]; simp [hu], ?_⟩
                simp only [hinc2]
                simp [hu]
                omega
              · refine ⟨by simp only [hinc2]; simp [hu], ?_⟩
                simp only [hinc2]
                simp [hu]
                omega
            · rw [if_neg hz]
              refine StepOk_afterLenStep hl1 (le_of_eq hl2.symm) ?_
              intro hcur hm hinv
              subst hm
              have hinc2 : Framed.include_block
                  { fd with len := size, state := FrameType.PBData } = true :=
                include_block_unb _ (hl1.trans hr)
                  (by show fd.unixfs_read + 1 < u64Max; rw [hl2]; exact hcur)
              simp only [List.length_cons] at hinv
              refine ⟨by simp [hinc2], ?_⟩
              simp [hinc2]
              omega
          | DataType =>
            dsimp only
            by_cases hdt : size % 2 ^ 32 ≥ 6
            · rw [if_pos ⟨rfl, hdt⟩]; exact trivial
            · rw [if_neg (fun hh => hdt hh.2)]
              by_cases hz : fd.blk_len - (fd.blk_pos + read) = 0
              · rw [if_pos hz]
                refine StepOk_afterLenStep hl1 (le_of_eq hl2.symm) ?_
                intro hcur hm hinv
                subst hm
                have hinc2 : Framed.include_block
                    { fd with len := size, state := FrameType.DataType } = true :=
                  include_block_unb _ (hl1.trans hr)
                    (by show fd.unixfs_read + 1 < u64Max; rw [hl2]; exact hcur)
                simp only [List.length_cons] at hinv
                by_cases hu : fd.unixfs_len = 0
                · refine ⟨by simp only [hinc2]; simp [hu], ?_⟩
                  simp only [hinc2]
                  simp [hu]
                  omega
                · refine ⟨by simp only [hinc2]; simp [hu], ?_⟩
                  simp only [hinc2]
                  simp [hu]
                  omega
              · rw [if_neg hz]
                refine StepOk_afterLenStep hl1 (le_of_eq hl2.symm) ?_
                intro hcur hm hinv
                subst hm
                have hinc2 : Framed.include_block
                    { fd with len := size, state := FrameType.DataType } = true :=
                  include_block_unb _ (hl1.trans hr)
                    (by show fd.unixfs_read + 1 < u64Max; rw [hl2]; exact hcur)
                simp only [List.length_cons] at hinv
                refine ⟨by simp [hinc2], ?_⟩
                simp [hinc2]
                omega
          | FileSize =>
            dsimp only
            rw [if_neg (by simp)]
            by_cases hz : fd.blk_len - (fd.blk_pos + read) = 0
            · rw [if_pos hz]
              refine StepOk_afterLenStep hl1 (le_of_eq hl2.symm) ?_
              intro hcur hm hinv
              subst hm
              have hinc2 : Framed.include_block
                  { fd with len := size, state := FrameType.FileSize } = true :=
                include_block_unb _ (hl1.trans hr)
                  (by show fd.unixfs_read + 1 < u64Max; rw [hl2]; exact hcur)
              simp only [List.length_cons] at hinv
              by_cases hu : fd.unixfs_len = 0
              · refine ⟨by simp only [hinc2]; simp [hu], ?_⟩
                simp only [hinc2]
                simp [hu]
                omega
              · refine ⟨by simp only [hinc2]; simp [hu], ?_⟩
                simp only [hinc2]
                simp [hu]
                omega
            · rw [if_neg hz]
              refine StepOk_afterLenStep hl1 (le_of_eq hl2.symm) ?_
              intro hcur hm hinv
              subst hm
              have hinc2 : Framed.include_block
                  { fd with len := size, state := FrameType.FileSize } = true :=
                include_block_unb _ (hl1.trans hr)
                  (by show fd.unixfs_read + 1 < u64Max; rw [hl2]; exact hcur)
              simp only [List.length_cons] at hinv
              refine ⟨by simp [hinc2], ?_⟩
              simp [hinc2]
              omega
          | BlockSizes =>
            dsimp only
            rw [if_neg (by simp)]
            by_cases hz : fd.blk_len - (fd.blk_pos + read) = 0
            · rw [if_pos hz]
              refine StepOk_afterLenStep hl1 (le_of_eq hl2.symm) ?_
              intro hcur hm hinv
              subst hm
              have hinc2 : Framed.include_block
                  { fd with len := size, state := FrameType.BlockSizes } = true :=
                include_block_unb _ (hl1.trans hr)
                  (by show fd.unixfs_read + 1 < u64Max; rw [hl2]; exact hcur)
              simp only [List.length_cons] at hinv
              by_cases hu : fd.unixfs_len = 0
              · refine ⟨by simp only [hinc2]; simp [hu], ?_⟩
                simp only [hinc2]
                simp [hu]
                omega
              · refine ⟨by simp only [hinc2]; simp [hu], ?_⟩
                simp only [hinc2]
                simp [hu]
                omega
            · rw [if_neg hz]
              refine StepOk_afterLenStep hl1 (le_of_eq hl2.symm) ?_
              intro hcur hm hinv
              subst hm
              have hinc2 : Framed.include_block
                  { fd with len := size, state := FrameType.BlockSizes } = true :=
                include_block_unb _ (hl1.trans hr)
                  (by show fd.unixfs_read + 1 < u64Max; rw [hl2]; exact hcur)
              simp only [List.length_cons] at hinv
              refine ⟨by simp [hinc2], ?_⟩
              simp [hinc2]
              omega
          | CarHeader =>
            dsimp only
            refine StepOk_afterLenStep hl1 (le_of_eq hl2.symm) ?_
            intro hcur hm hinv
            subst hm
            have hinc2 : Framed.include_block
                { fd with len := size, state := FrameType.CarHeader } = true :=
              include_block_unb _ (hl1.trans hr)
                (by show fd.unixfs_read + 1 < u64Max; rw [hl2]; exact hcur)
            simp only [List.length_cons] at hinv
            refine ⟨by simp [hinc2], ?_⟩
            simp [hinc2]
            omega
          | Cid =>
            dsimp only
            refine StepOk_afterLenStep hl1 (le_of_eq hl2.symm) ?_
            intro hcur hm hinv
            subst hm
            have hinc2 : Framed.include_block
                { fd with len := size, state := FrameType.Cid } = true :=
              include_block_unb _ (hl1.trans hr)
                (by show fd.unixfs_read + 1 < u64Max; rw [hl2]; exact hcur)
            simp only [List.length_cons] at hinv
            refine ⟨by simp [hinc2], ?_⟩
            simp [hinc2]
            omega
          | RawLeaf =>
            dsimp only
            refine StepOk_afterLenStep hl1 (le_of_eq hl2.symm) ?_
            intro hcur hm hinv
            subst hm
            have hinc2 : Framed.include_block
                { fd with len := size, state := FrameType.RawLeaf } = true :=
              include_block_unb _ (hl1.trans hr)
                (by show fd.unixfs_read + 1 < u64Max; rw [hl2]; exact hcur)
            simp only [List.length_cons] at hinv
            refine ⟨by simp [hinc2], ?_⟩
            simp [hinc2]
            omega
      · rw [if_neg hlen]
        by_cases hle : f.len ≤ listLength (b :: bs)
        · rw [if_pos hle]
          rw [listLength_eq, List.length_cons] at hle
          dsimp only
          cases hst : f.state with
          | CarHeader =>
            refine ⟨rfl, Nat.le_refl _, fun hcur hrs hs hm hinv => ?_⟩
            subst hrs; subst hs; subst hm
            have hinc : f.include_block = true := include_block_unb f hr hcur
            simp only [List.length_cons] at hinv
            refine ⟨by simp [hinc], by simp [hinc], by simp [hinc], ?_⟩
            simp [hinc]
            omega
          | PBLinks =>
            refine ⟨rfl, Nat.le_refl _, fun hcur hrs hs hm hinv => ?_⟩
            subst hrs; subst hs; subst hm
            have hinc : f.include_block = true := include_block_unb f hr hcur
            simp only [List.length_cons] at hinv
            refine ⟨by simp [hinc], by simp [hinc], by simp [hinc], ?_⟩
            simp [hinc]
            omega
          | Block =>
            refine ⟨rfl, Nat.le_refl _, fun hcur hrs hs hm hinv => ?_⟩
            subst hrs; subst hs; subst hm
            have hinc : f.include_block = true := include_block_unb f hr hcur
            simp only [List.length_cons] at hinv
            refine ⟨by simp [hinc], by simp [hinc], by simp [hinc], ?_⟩
            simp [hinc]
            omega
          | Cid =>
            refine ⟨rfl, Nat.le_refl _, fun hcur hrs hs hm hinv => ?_⟩
            subst hrs; subst hs; subst hm
            have hinc : f.include_block = true := include_block_unb f hr hcur
            simp only [List.length_cons] at hinv
            refine ⟨by simp [hinc], by simp [hinc], by simp [hinc], ?_⟩
            simp [hinc]
            omega
          | MerkleDag =>
            refine ⟨rfl, Nat.le_refl _, fun hcur hrs hs hm hinv => ?_⟩
            subst hrs; subst hs; subst hm
            have hinc : f.include_block = true := include_block_unb f hr hcur
            simp only [List.length_cons] at hinv
            refine ⟨by simp [hinc], by simp [hinc], by simp [hinc], ?_⟩
            simp [hinc]
            omega
          | PBData =>
            refine ⟨rfl, Nat.le_refl _, fun hcur hrs hs hm hinv => ?_⟩
            subst hrs; subst hs; subst hm
            have hinc : f.include_block = true := include_block_unb f hr hcur
            simp only [List.length_cons] at hinv
            refine ⟨by simp [hinc], by simp [hinc], by simp [hinc], ?_⟩
            simp [hinc]
            omega
          | UnixFs =>
            refine ⟨rfl, Nat.le_refl _, fun hcur hrs hs hm hinv => ?_⟩
            subst hrs; subst hs; subst hm
            have hinc : f.include_block = true := include_block_unb f hr hcur
            simp only [List.length_cons] at hinv
            refine ⟨by simp [hinc], by simp [hinc], by simp [hinc], ?_⟩
            simp [hinc]
            omega
          | DataType =>
            refine ⟨rfl, Nat.le_refl _, fun hcur hrs hs hm hinv => ?_⟩
            subst hrs; subst hs; subst hm
            have hinc : f.include_block = true := include_block_unb f hr hcur
            simp only [List.length_cons] at hinv
            refine ⟨by simp [hinc], by simp [hinc], by simp [hinc], ?_⟩
            simp [hinc]
            omega
          | FileSize =>
            refine ⟨rfl, Nat.le_refl _, fun hcur hrs hs hm hinv => ?_⟩
            subst hrs; subst hs; subst hm
            have hinc : f.include_block = true := include_block_unb f hr hcur
            simp only [List.length_cons] at hinv
            refine ⟨by simp [hinc], by simp [hinc], by simp [hinc], ?_⟩
            simp [hinc]
            omega
          | BlockSizes =>
            refine ⟨rfl, Nat.le_refl _, fun hcur hrs hs hm hinv => ?_⟩
            subst hrs; subst hs; subst hm
            have hinc : f.include_block = true := include_block_unb f hr hcur
            simp only [List.length_cons] at hinv
            refine ⟨by simp [hinc], by simp [hinc], by simp [hinc], ?_⟩
            simp [hinc]
            omega
          | UnixFsData =>
            refine ⟨rfl, Nat.le_add_right _ _, fun hcur hrs hs hm hinv => ?_⟩
            subst hrs; subst hs; subst hm
            have hinc : f.include_block = true := include_block_unb f hr hcur
            simp only [List.length_cons] at hinv
            refine ⟨by simp [hinc], by simp [hinc], by simp [hinc], ?_⟩
            simp [hinc]
            omega
          | RawLeaf =>
            refine ⟨rfl, Nat.le_add_right _ _, fun hcur hrs hs hm hinv => ?_⟩
            subst hrs; subst hs; subst hm
            have hinc : f.include_block = true := include_block_unb f hr hcur
            simp only [List.length_cons] at hinv
            refine ⟨by simp [hinc], by simp [hinc], by simp [hinc], ?_⟩
            simp [hinc]
            omega
        · rw [if_neg hle]
          rw [listLength_eq, List.length_cons] at hle
          dsimp only
          cases hst : f.state with
          | CarHeader =>
            refine ⟨rfl, Nat.le_refl _, fun hcur hrs hs hm hinv => ?_⟩
            subst hrs; subst hs; subst hm
            have hinc : f.include_block = true := include_block_unb f hr hcur
            simp only [List.length_cons] at hinv
            refine ⟨by simp [hinc], by simp [hinc], by simp [hinc], ?_⟩
            simp [hinc, listLength_eq]
            omega
          | Block =>
            refine ⟨rfl, Nat.le_refl _, fun hcur hrs hs hm hinv => ?_⟩
            subst hrs; subst hs; subst hm
            have hinc : f.include_block = true := include_block_unb f hr hcur
            simp only [List.length_cons] at hinv
            refine ⟨by simp [hinc], by simp [hinc], by simp [hinc], ?_⟩
            simp [hinc, listLength_eq]
            omega
          | Cid =>
            refine ⟨rfl, Nat.le_refl _, fun hcur hrs hs hm hinv => ?_⟩
            subst hrs; subst hs; subst hm
            have hinc : f.include_block = true := include_block_unb f hr hcur
            simp only [List.length_cons] at hinv
            refine ⟨by simp [hinc], by simp [hinc], by simp [hinc], ?_⟩
            simp [hinc, listLength_eq]
            omega
          | RawLeaf =>
            refine ⟨rfl, Nat.le_refl _, fun hcur hrs hs hm hinv => ?_⟩
            subst hrs; subst hs; subst hm
            have hinc : f.include_block = true := include_block_unb f hr hcur
            simp only [List.length_cons] at hinv
            refine ⟨by simp [hinc], by simp [hinc], by simp [hinc], ?_⟩
            simp [hinc, listLength_eq]
            omega
          | MerkleDag =>
            refine ⟨rfl, Nat.le_refl _, fun hcur hrs hs hm hinv => ?_⟩
            subst hrs; subst hs; subst hm
            have hinc : f.include_block = true := include_block_unb f hr hcur
            simp only [List.length_cons] at hinv
            refine ⟨by simp [hinc], by simp [hinc], by simp [hinc], ?_⟩
            simp [hinc, listLength_eq]
            omega
          | PBLinks =>
            refine ⟨rfl, Nat.le_refl _, fun hcur hrs hs hm hinv => ?_⟩
            subst hrs; subst hs; subst hm
            have hinc : f.include_block = true := include_block_unb f hr hcur
            simp only [List.length_cons] at hinv
            refine ⟨by simp [hinc], by simp [hinc], by simp [hinc], ?_⟩
            simp [hinc, listLength_eq]
            omega
          | PBData =>
            refine ⟨rfl, Nat.le_refl _, fun hcur hrs hs hm hinv => ?_⟩
            subst hrs; subst hs; subst hm
            have hinc : f.include_block = true := include_block_unb f hr hcur
            simp only [List.length_cons] at hinv
            refine ⟨by simp [hinc], by simp [hinc], by simp [hinc], ?_⟩
            simp [hinc, listLength_eq]
            omega
          | UnixFs =>
            refine ⟨rfl, Nat.le_refl _, fun hcur hrs hs hm hinv => ?_⟩
            subst hrs; subst hs; subst hm
            have hinc : f.include_block = true := include_block_unb f hr hcur
            simp only [List.length_cons] at hinv
            refine ⟨by simp [hinc], by simp [hinc], by simp [hinc], ?_⟩
            simp [hinc, listLength_eq]
            omega
          | DataType =>
            refine ⟨rfl, Nat.le_refl _, fun hcur hrs hs hm hinv => ?_⟩
            subst hrs; subst hs; subst hm
            have hinc : f.include_block = true := include_block_unb f hr hcur
            simp only [List.length_cons] at hinv
            refine ⟨by simp [hinc], by simp [hinc], by simp [hinc], ?_⟩
            simp [hinc, listLength_eq]
            omega
          | FileSize =>
            refine ⟨rfl, Nat.le_refl _, fun hcur hrs hs hm hinv => ?_⟩
            subst hrs; subst hs; subst hm
            have hinc : f.include_block = true := include_block_unb f hr hcur
            simp only [List.length_cons] at hinv
            refine ⟨by simp [hinc], by simp [hinc], by simp [hinc], ?_⟩
            simp [hinc, listLength_eq]
            omega
          | BlockSizes =>
            refine ⟨rfl, Nat.le_refl _, fun hcur hrs hs hm hinv => ?_⟩
            subst hrs; subst hs; subst hm
            have hinc : f.include_block = true := include_block_unb f hr hcur
            simp only [List.length_cons] at hinv
            refine ⟨by simp [hinc], by simp [hinc], by simp [hinc], ?_⟩
            simp [hinc, listLength_eq]
            omega
          | UnixFsData =>
            refine ⟨rfl, Nat.le_refl _, fun hcur hrs hs hm hinv => ?_⟩
            subst hrs; subst hs; subst hm
            have hinc : f.include_block = true := include_block_unb f hr hcur
            simp only [List.length_cons] at hinv
            refine ⟨by simp [hinc], by simp [hinc], by simp [hinc], ?_⟩
            simp [hinc, listLength_eq]
            omega

/-- Under an unbounded range, `next_go` preserves the range and never
decreases the unixfs cursor. -/
lemma next_go_mono (origLen fuel : Nat) (f : Framed) (current : List Byte)
    (ranges : List (Nat × Nat)) (start pos maybe : Nat)
    (f' : Framed) (rs : List (Nat × Nat)) (hr : f.range = unbAll)
    (h : next_go origLen fuel f current ranges start pos maybe =
      some (f', rs)) :
    f'.range = unbAll ∧ f.unixfs_read ≤ f'.unixfs_read := by
  induction fuel generalizing f current ranges start pos maybe with
  | zero => exact absurd h (by rw [next_go]; exact Option.noConfusion)
  | succ n ih =>
    rw [next_go] at h
    have hok := nextStep_ok origLen f current ranges start pos maybe hr
    rcases hns : nextStep origLen f current ranges start pos maybe with
      ⟨f1, rs1⟩ | ⟨f1, c1, rs1, s1, p1, m1⟩ | _
    · rw [hns] at h hok
      cases h
      rw [hok.1]
      exact ⟨hr, Nat.le_refl _⟩
    · rw [hns] at h hok
      obtain ⟨hr1, hm1, _⟩ := hok
      obtain ⟨ha, hb⟩ := ih f1 c1 rs1 s1 p1 m1 (hr1.trans hr) h
      exact ⟨ha, hm1.trans hb⟩
    · rw [hns] at h
      cases h

/-- Under an unbounded range with the final cursor below `u64::MAX - 1`,
the loop of `Framed::next` started in its initial locals produces a single
view `(0, p)` reaching at least to the end of the chunk. -/
lemma next_go_ranges (origLen fuel : Nat) (f : Framed) (current : List Byte)
    (pos : Nat) (f' : Framed) (rs : List (Nat × Nat))
    (hr : f.range = unbAll) (hcur : f'.unixfs_read + 1 < u64Max)
    (hinv : origLen ≤ pos + current.length)
    (h : next_go origLen fuel f current [] 0 pos 0 = some (f', rs)) :
    ∃ p, rs = [(0, p)] ∧ origLen ≤ p := by
  induction fuel generalizing f current pos with
  | zero => exact absurd h (by rw [next_go]; exact Option.noConfusion)
  | succ n ih =>
    rw [next_go] at h
    have hok := nextStep_ok origLen f current [] 0 pos 0 hr
    rcases hns : nextStep origLen f current [] 0 pos 0 with
      ⟨f1, rs1⟩ | ⟨f1, c1, rs1, s1, p1, m1⟩ | _
    · rw [hns] at h hok
      cases h
      obtain ⟨he1, he2, he3⟩ := hok
      refine ⟨pos, by rw [he2]; simp, ?_⟩
      rw [he3] at hinv
      simpa using hinv
    · rw [hns] at h hok
      obtain ⟨hr1, hm1, hcond⟩ := hok
      obtain ⟨_, hm2⟩ := next_go_mono origLen n f1 c1 rs1 s1 p1 m1 f' rs
        (hr1.trans hr) h
      obtain ⟨hrs1, hs1, hm1', hinv1⟩ := hcond (by omega) rfl rfl rfl hinv
      rw [hrs1, hs1, hm1'] at h
      exact ih f1 c1 p1 (hr1.trans hr) hinv1 h
    · rw [hns] at h
      cases h

/-- Under an unbounded range, one `Framed::next` call whose final cursor is
below `u64::MAX - 1` views exactly the whole chunk it was fed. -/
lemma next_unb (f : Framed) (buf : List Byte) (f' : Framed)
    (rs : List (Nat × Nat)) (hr : f.range = unbAll)
    (hcur : f'.unixfs_read + 1 < u64Max)
    (h : f.next buf = some (f', rs)) :
    concatViews buf rs = buf ∧ f'.range = unbAll ∧
      f.unixfs_read ≤ f'.unixfs_read := by
  rw [Framed.next] at h
  obtain ⟨hr', hm⟩ := next_go_mono (listLength buf) (listLength buf + 2)
    f buf [] 0 0 0 f' rs hr h
  obtain ⟨p, hp, hbound⟩ := next_go_ranges (listLength buf)
    (listLength buf + 2) f buf 0 f' rs hr hcur (by simp) h
  refine ⟨?_, hr', hm⟩
  rw [hp, concatViews]
  rw [listLength_eq] at hbound
  simp [List.take_of_length_le hbound]

/-- Under an unbounded range, feeding any chunk sequence preserves the
range and never decreases the unixfs cursor. -/
lemma processChunks_mono (chunks : List (List Byte)) (f f' : Framed)
    (out : List Byte) (hr : f.range = unbAll)
    (h : processChunks f chunks = some (f', out)) :
    f'.range = unbAll ∧ f.unixfs_read ≤ f'.unixfs_read := by
  induction chunks generalizing f out with
  | nil =>
    rw [processChunks] at h
    cases h
    exact ⟨hr, Nat.le_refl _⟩
  | cons c cs ih =>
    rw [processChunks] at h
    rcases hn : f.next c with _ | ⟨f1, rs⟩ <;> rw [hn] at h <;>
      dsimp only at h
    · cases h
    · rcases hp : processChunks f1 cs with _ | ⟨f2, out2⟩ <;> rw [hp] at h <;>
        dsimp only at h
      · cases h
      · cases h
        rw [Framed.next] at hn
        obtain ⟨hr1, hm1⟩ := next_go_mono (listLength c) (listLength c + 2)
          f c [] 0 0 0 f1 rs hr hn
        obtain ⟨hr2, hm2⟩ := ih f1 out2 hr1 hp
        exact ⟨hr2, hm1.trans hm2⟩

/-- Under an unbounded range, whenever the parser processes every chunk
without a panic and its final cursor stays below `u64::MAX - 1`, the
concatenated views are the concatenated input chunks. -/
lemma processChunks_unb (chunks : List (List Byte)) (f f' : Framed)
    (out : List Byte) (hr : f.range = unbAll)
    (hcur : f'.unixfs_read + 1 < u64Max)
    (h : processChunks f chunks = some (f', out)) :
    out = chunks.flatten := by
  induction chunks generalizing f out with
  | nil =>
    rw [processChunks] at h
    cases h
    rfl
  | cons c cs ih =>
    rw [processChunks] at h
    rcases hn : f.next c with _ | ⟨f1, rs⟩ <;> rw [hn] at h <;>
      dsimp only at h
    · cases h
    · rcases hp : processChunks f1 cs with _ | ⟨f2, out2⟩ <;> rw [hp] at h <;>
        dsimp only at h
      · cases h
      · cases h
        have hr1 : f1.range = unbAll := by
          rw [Framed.next] at hn
          exact (next_go_mono (listLength c) (listLength c + 2)
            f c [] 0 0 0 f1 rs hr hn).1
        obtain ⟨_, hm2⟩ := processChunks_mono cs f1 f' out2 hr1 hp
        obtain ⟨hcv, _, _⟩ := next_unb f c f1 rs hr (by omega) hn
        rw [hcv, ih f1 out2 hr1 hp, List.flatten_cons]

/-- Chunking used by the C3 witness: a 5-byte header frame split across a
chunk boundary, then the start of a block frame (length prefix and the
first CID bytes). -/
def c3wChunks : List (List Byte) := [[5], [1, 2], [3, 4, 5, 9]]

/-- Parser state after feeding `c3wChunks` with the unbounded range. -/
def c3wFinal : Framed :=
  { len := 0, blk_len := 9, blk_pos := 0, buf := [], range := unbAll,
    unixfs_read := 0, unixfs_len := 0, has_links := false,
    state := FrameType.Cid }

/-- C5: after a leaf frame's decoded length has been added to the logical
cursor, an exactly-satisfied upper bound (`b = unixfs_read` for
`Included b`, `b - 1 = unixfs_read` for `Excluded b`, with `1 ≤ b` since
`b - 1` is a `u64` subtraction) makes the `is_last` test fire, which sets
`done = 1` and marks the buffer's output view with `last_buf` and
`last_in_chain`; an unbounded upper bound never makes `is_last` fire. -/
theorem c5_thm (ctx : CarBufferContext) (bufLen : Nat) (buf : List Byte)
    (flagged : Bool) (s e : Nat) (rest : List (Nat × Nat)) :
    (ctx.framed.range.hi = Bnd.unbounded → part_is_last ctx.framed = false)
    ∧ (∀ b, ctx.framed.range.hi = Bnd.included b →
        (part_is_last ctx.framed = true ↔ b = ctx.framed.unixfs_read))
    ∧ (∀ b, ctx.framed.range.hi = Bnd.excluded b → 1 ≤ b →
        (part_is_last ctx.framed = true ↔ b - 1 = ctx.framed.unixfs_read))
    ∧ (part_is_last ctx.framed = true →
        (bufferParts ctx bufLen buf flagged ((s, e) :: rest)).1.done = 1
        ∧ ∀ o, (bufferParts ctx bufLen buf flagged ((s, e) :: rest)).2 = some o →
            o.last_buf = true ∧ o.last_in_chain = true) := by
  refine ⟨?_, ?_, ?_, ?_⟩
  · intro h; simp [part_is_last, h]
  · intro b h; simp [part_is_last, h]
  · intro b h _; simp [part_is_last, h]
  · intro hlast
    have hlast' : part_is_last ({ ctx with pos := e } : CarBufferContext).framed = true := hlast
    constructor
    · simp only [bufferParts, hlast', Bool.or_true]
      split
      · exact bufferParts_done_mono rest _ _ _ _ rfl
      · rfl
    · intro o ho
      simp only [bufferParts, hlast', Bool.or_true, Bool.or_true] at ho
      split at ho
      · exact bufferParts_flag_mono rest _ _ _ o ho
      · simp at ho
        cases ho
        exact ⟨rfl, rfl⟩

/-- C5 witness: a concrete context whose range `..1` is exactly satisfied
at cursor 0 sets `done` on the first part. -/
theorem c5_witness :
    (bufferParts (CarBufferContext.new rangeTo1) 60 hdrFrame false [(0, 60)]).1.done = 1 :=
  ((c5_thm (CarBufferContext.new rangeTo1) 60 hdrFrame false 0 60 []).2.2.2
    (by decide)).1

/-- C6 (amended): once `done = 1`, every subsequent call to `buffer` returns
the null chain and leaves the whole context — including the logical cursor
`unixfs_read` — untouched.  (Within the very call that sets `done`, later
links of the same input chain are still processed; see the
counterexample.) -/
theorem c6_amended_thm (ctx : CarBufferContext) (input : List (List Byte))
    (h : ctx.done = 1) : ctx.buffer input = some (ctx, []) := by
  simp [CarBufferContext.buffer, h]

/-- C6 witness: a finished context fed two fresh chunks yields no output. -/
theorem c6_amended_witness :
    ({ framed := Framed.new rangeTo1, done := 1, pos := 0 } :
        CarBufferContext).buffer [hdrFrame, rootFrame 9] =
      some ({ framed := Framed.new rangeTo1, done := 1, pos := 0 }, []) :=
  c6_amended_thm _ _ rfl

/-- C6 counterexample: with range `..1` the first chain link (the header)
is marked terminal (`last_buf = true`) and sets `done`, yet the second link
of the same call still emits a non-empty 47-byte view — a non-empty view
follows the view marked terminal. -/
theorem c6_counterexample :
    ((CarBufferContext.new rangeTo1).buffer [hdrFrame, rootFrame 9]).map
        (fun x => x.2.map (fun o => (o.bytes.length, o.last_buf))) =
      some [(60, true), (47, true)] := by decide

/-- C7 (amended): in the `nginx_handler` path of `src/lib.rs`, a block
whose CID codec is neither `0x55` nor `0x70` is written back whole with
the logical cursor unchanged and no error, for every decoder behaviour.
(The streaming `Framed` parser instead panics on such a codec; see the
counterexample.) -/
theorem c7_amended_thm (decodePb : List Byte → Option PbNode)
    (decodeUnixfs : List Byte → Option UnixfsData) (range : RangeB)
    (current : Nat) (cidCodec : Nat) (cidBytes data : List Byte)
    (h70 : cidCodec ≠ 0x70) (h55 : cidCodec ≠ 0x55) :
    handler_block_step decodePb decodeUnixfs range current cidCodec cidBytes data =
      some (current, lp_write (cidBytes ++ data)) := by
  simp [handler_block_step, h55, h70]

/-- C7 witness: a dag-cbor (`0x71`) block passes through the handler
untouched. -/
theorem c7_amended_witness :
    handler_block_step (fun _ => none) (fun _ => none) range01 5 0x71 rawCidB [1, 2] =
      some (5, lp_write (rawCidB ++ [1, 2])) :=
  c7_amended_thm (fun _ => none) (fun _ => none) range01 5 0x71 rawCidB [1, 2]
    (by decide) (by decide)

/-- C7 counterexample: the streaming parser `Framed::next` does fail on a
block whose CID codec is `0x71` — the `unimplemented!()` at
`src/car_reader.rs` line 318 aborts processing (`none`), so processing is
not failure-free and the frame is not retained. -/
theorem c7_counterexample :
    (Framed.new ⟨Bnd.included 0, Bnd.unbounded⟩).next streamS71 = none := by decide

/-- C8 (amended): a frame-length varint with no terminating byte is never
an error: `decode_len` pushes the whole chunk into the scratch buffer
(which is an ordinary `Vec` and grows past its initial 72-byte capacity)
and reports an incomplete frame (`none`); there is no
`MalformedFrameLength` anywhere.  On success the decoder does return the
value and the bytes consumed (the type of `decode_len`). -/
theorem c8_amended_thm (f : Framed) (buf : List Byte) (hne : buf ≠ [])
    (hbuf : ∀ b ∈ buf, b &&& 128 ≠ 0) (hscr : ∀ b ∈ f.buf, b &&& 128 ≠ 0) :
    f.decode_len buf = ({ f with buf := f.buf ++ buf }, none) := by
  rw [Framed.decode_len, decode_len_go_msb buf f.buf 0 hne hscr hbuf]

/-- C8 witness: five unterminated bytes are buffered with no error. -/
theorem c8_amended_witness :
    (Framed.new unbAll).decode_len (List.replicate 5 200) =
      ({ Framed.new unbAll with
         buf := (Framed.new unbAll).buf ++ List.replicate 5 200 }, none) :=
  c8_amended_thm (Framed.new unbAll) (List.replicate 5 200) (by decide)
    (by decide) (by decide)

/-- C8 counterexample: feeding 80 unterminated varint bytes — more than
the scratch buffer's fixed 72-byte capacity — does not fail: `Framed::next`
returns successfully (keeping the whole chunk as the current view) with all
80 bytes accumulated in the scratch buffer.  No `MalformedFrameLength`
error exists. -/
theorem c8_counterexample :
    ((Framed.new unbAll).next (List.replicate 80 128)).map
        (fun x => (x.2, x.1.buf.length)) = some ([(0, 80)], 80) ∧ 72 < 80 := by
  exact ⟨by decide, by decide⟩

/-- C9: `read_header` fails (returns an error to the caller — an `Err`
value, not an abort) exactly when the CBOR decode of the header payload
fails, the decoded roots list is empty, or the version differs from 1;
on a valid version-1 header with at least one root it succeeds and writes
the header frame back to the stream (retained). -/
theorem c9_thm (decode : List Byte → Option CarHeader) (input hb rest : List Byte)
    (hlp : lp_read input = some (hb, rest)) :
    (∀ h, decode hb = some h → h.roots ≠ [] → h.version = 1 →
        read_header decode input = some (h, rest, lp_write hb))
    ∧ (decode hb = none → read_header decode input = none)
    ∧ (∀ h, decode hb = some h → h.roots = [] → read_header decode input = none)
    ∧ (∀ h, decode hb = some h → h.version ≠ 1 → read_header decode input = none) := by
  refine ⟨?_, ?_, ?_, ?_⟩
  · intro h hdec hroots hver
    simp [read_header, hlp, hdec, hroots, hver, List.isEmpty_iff]
  · intro hdec
    simp [read_header, hlp, hdec]
  · intro h hdec hroots
    simp [read_header, hlp, hdec, hroots]
  · intro h hdec hver
    rcases eq_or_ne h.roots [] with hroots | hroots
    · simp [read_header, hlp, hdec, hroots]
    · simp [read_header, hlp, hdec, hver, List.isEmpty_iff, hroots]

/-- C9 witness: a concrete stream whose 2-byte header payload decodes (via
a stub decoder) to a one-root version-1 header is accepted and re-emitted. -/
theorem c9_witness :
    read_header (fun _ => some { roots := [[0]], version := 1 }) [2, 9, 9] =
      some ({ roots := [[0]], version := 1 }, [], lp_write [9, 9]) :=
  (c9_thm (fun _ => some { roots := [[0]], version := 1 }) [2, 9, 9] [9, 9] []
      (by decide)).1
    { roots := [[0]], version := 1 } rfl (by decide) rfl

/-- C1 (amended): the leaf inclusion test `include_block` retains a
mid-stream leaf frame (cursor `a ≥ 1`, decoded length `len ≥ 2`) iff some
logical position `x` with `a + 1 ≤ x < a + len` lies in the requested
range — the spec's span `[a, a + len)` shifted up by one (hypotheses keep
the range well formed and below `u64::MAX`). -/
theorem c1_amended_thm (f : Framed)
    (hstate : f.state = FrameType.RawLeaf ∨ f.state = FrameType.UnixFsData)
    (hread : 1 ≤ f.unixfs_read) (hlen : 2 ≤ f.unixfs_len)
    (hbound : f.unixfs_read + f.unixfs_len ≤ u64Max)
    (hwf : rangeStartNum f.range < rangeEndNum f.range) :
    (f.include_block = true ↔
      ∃ x, f.unixfs_read + 1 ≤ x ∧ x < f.unixfs_read + f.unixfs_len ∧
        containsR f.range x = true) := by
  have hcond : (f.unixfs_read == 0 || f.unixfs_len == 0) = false := by
    simp; omega
  have hbody : f.include_block =
      ranges_overlap f.range (f.unixfs_read + 1) (f.unixfs_read + f.unixfs_len) := by
    rcases hstate with h | h <;> simp [Framed.include_block, h, hcond]
  rw [hbody]
  exact ranges_overlap_true_iff f.range (f.unixfs_read + 1)
    (f.unixfs_read + f.unixfs_len) (by omega) hbound hwf

/-- C1 witness: a leaf spanning logical `[1000, 2000)` against range
`..1024` is included, witnessed at position 1001. -/
theorem c1_amended_witness :
    Framed.include_block
      { len := 1000, blk_len := 1036, blk_pos := 36, buf := [],
        range := rangeTo1024, unixfs_read := 1000, unixfs_len := 1000,
        has_links := false, state := FrameType.RawLeaf } = true :=
  (c1_amended_thm _ (Or.inl rfl) (by decide) (by decide) (by decide)
      (by decide)).mpr ⟨1001, by decide, by decide, by decide⟩

/-- C1 counterexample: with request range `0..1` the only leaf of
`streamS1` occupies logical span `[0, 1000)`, which intersects `[0, 1)`
(byte 0 is requested), yet none of its 1000 payload bytes (value 171)
reach the output — the filter emits only the header and root frames. -/
theorem c1_counterexample :
    filterOutput range01 [streamS1] = some (hdrFrame ++ rootFrame 9)
    ∧ (hdrFrame ++ rootFrame 9).count 171 = 0
    ∧ streamS1.count 171 = 1000 := by
  refine ⟨(eqOptBytes_iff _ _).mp (by decide), ?_, ?_⟩
  · rw [← countByte_eq]; decide
  · rw [← countByte_eq]; decide

/-- C2 divergence: the same stream and range produce different outputs
under different chunkings.  Stream `streamS3` (header, 1038-byte leaf,
138-byte leaf, 1038-byte leaf, 138-byte leaf) with range `10000..`: fed
whole, the filter emits 98 bytes (header plus the second leaf's length
prefix and CID); split at offset 1098 it emits those 98 bytes plus the
38-byte length prefix and CID of the fourth leaf. -/
theorem c2_divergence_thm :
    filterOutput range10000 [streamS3] =
      some (streamS3.take 60 ++ (streamS3.take 1136).drop 1098)
    ∧ filterOutput range10000 [streamS3.take 1098, streamS3.drop 1098] =
      some (streamS3.take 60 ++ (streamS3.take 1136).drop 1098 ++
        (streamS3.take 2312).drop 2274)
    ∧ filterOutput range10000 [streamS3] ≠
        filterOutput range10000 [streamS3.take 1098, streamS3.drop 1098] := by
  refine ⟨(eqOptBytes_iff _ _).mp (by decide), (eqOptBytes_iff _ _).mp (by decide), ?_⟩
  intro h
  have hb := (eqOptBytes_iff (filterOutput range10000 [streamS3])
    (filterOutput range10000 [streamS3.take 1098, streamS3.drop 1098])).mpr h
  rw [show eqOptBytes (filterOutput range10000 [streamS3])
      (filterOutput range10000 [streamS3.take 1098, streamS3.drop 1098]) = false
    from by decide] at hb
  cases hb

/-- C3 counterexample: with the unbounded range `..`, a CAR stream
containing a block whose CID codec is `0x71` makes `Framed::next` abort
(the `unimplemented!()` panic), so no output exists at all — filtering is
not the identity on every input CAR stream. -/
theorem c3_counterexample :
    (Framed.new unbAll).next streamS71 = none
    ∧ filterOutput unbAll [streamS71] = none := by
  exact ⟨by decide, by decide⟩

/-- C3 (amended): with a range unbounded at both ends, filtering is the
identity for every chunking of the input: whenever the parser processes
all chunks without panicking and its logical cursor stays below
`u64::MAX - 1`, the concatenation of the emitted views equals the
concatenation of the input chunks byte for byte. -/
theorem c3_amended_thm (chunks : List (List Byte)) (f' : Framed)
    (out : List Byte)
    (h : processChunks (Framed.new unbAll) chunks = some (f', out))
    (hcur : f'.unixfs_read + 1 < u64Max) :
    out = chunks.flatten :=
  processChunks_unb chunks (Framed.new unbAll) f' out rfl hcur h

/-- C3 witness: the three-chunk stream `c3wChunks` is processed without
panic, ends with the cursor far below `u64::MAX`, and is reproduced
exactly. -/
theorem c3_amended_witness :
    processChunks (Framed.new unbAll) c3wChunks =
      some (c3wFinal, [5, 1, 2, 3, 4, 5, 9])
    ∧ c3wFinal.unixfs_read + 1 < u64Max
    ∧ ([5, 1, 2, 3, 4, 5, 9] : List Byte) = c3wChunks.flatten :=
  ⟨by decide, by decide,
   c3_amended_thm c3wChunks c3wFinal [5, 1, 2, 3, 4, 5, 9] (by decide)
     (by decide)⟩

/-- C4 counterexample: with request range `0..1` on `streamS4` (header,
has-links root, one raw leaf, then a second has-links DAG frame whose link
bytes equal 77), the second structural frame is dropped entirely: the
output stops at the header and first root, and no byte 77 appears in it,
although the stream contains four of them. -/
theorem c4_counterexample :
    filterOutput range01 [streamS4] = some (hdrFrame ++ rootFrame 9)
    ∧ (hdrFrame ++ rootFrame 9).count 77 = 0
    ∧ streamS4.count 77 = 4 := by
  refine ⟨(eqOptBytes_iff _ _).mp (by decide), ?_, ?_⟩
  · rw [← countByte_eq]; decide
  · rw [← countByte_eq]; decide

/-- C4 (amended): frames are retained only up to the point where the
range's upper bound is passed.  On the worked-scenario stream: range
`..1024` retains the header, the root and both leaves whole; range
`4500..` (entirely after the 2000-byte logical content) retains the header
and the root whole while trimming both leaves; and a range whose upper
bound is `Included 0` (the request `bytes=0:0`) is already satisfied at
cursor 0, so the early return fires immediately and the output is empty —
even the header frame is dropped. -/
theorem c4_amended_thm :
    filterOutput rangeTo1024 [streamS] =
      some (hdrFrame ++ rootFrame 9 ++ leafFrame 11 ++ leafFrame 12)
    ∧ filterOutput range4500 [streamS] = some (hdrFrame ++ rootFrame 9)
    ∧ filterOutput ⟨Bnd.included 0, Bnd.included 0⟩ [streamS] = some [] :=
  ⟨(eqOptBytes_iff _ _).mp (by decide),
   (eqOptBytes_iff _ _).mp (by decide),
   (eqOptBytes_iff _ _).mp (by decide)⟩

/-- C10 divergence: `Framed::next` on the 2412-byte `streamS3` with range
`10000..` emits the view pair `(3372, 3410)` whose end exceeds the chunk
length — the caller's slice `buf[start..end]` would be out of bounds. -/
theorem c10_divergence_thm :
    ((Framed.new range10000).next streamS3).map (fun x => x.2) =
      some [(0, 60), (1098, 1136), (3372, 3410), (6882, 6882)]
    ∧ streamS3.length = 2412 ∧ 2412 < 3410 := by
  refine ⟨by decide, ?_, by decide⟩
  rw [← listLength_eq]; decide

end CarRange
